import Mathlib

/-!
Shallow embedding of the fastcdc repository (Go): the Gear-hash boundary
scanner (`ChunkerCore.FindBoundary` in core.go), its configuration and
validation (options.go), and the buffered streaming wrapper
(`Chunker.Next` / `fillBuffer` / `Reset` in chunker.go), together with a
scripted model of the abstract `io.Reader` source.

Machine integers are modelled as `Nat` with explicit reduction modulo
2^64 where the Go code uses `uint64` arithmetic that can overflow
(the rolling fingerprint).  Positions and sizes are bounded by
`maxSize : uint32` in all reachable states, so they are plain `Nat`.
The Gear lookup table (table.go, `generateTable`) enters only as an
opaque-to-the-claims function from byte values to 64-bit constants, so
it is a parameter `table : Nat → Nat` of the configuration.
-/

namespace FastCDC

/-- 2^64, the modulus of Go `uint64` arithmetic. -/
def U64 : Nat := 2 ^ 64

/-- The read-only fields of `ChunkerCore` (core.go lines 8-24) that the
scanning algorithm consults: the Gear table and the derived size/mask
configuration. -/
structure CoreCfg where
  table : Nat → Nat
  minSize : Nat
  normSize : Nat
  maxSize : Nat
  maskS : Nat
  maskL : Nat

/-- The mutable scanner state of `ChunkerCore`: `fingerprint uint64` and
`position uint32` (core.go lines 11 and 23). -/
structure CoreState where
  fingerprint : Nat
  position : Nat
deriving Repr, DecidableEq

/-- `ChunkerCore.Reset` (core.go lines 58-61): fingerprint and position
both return to zero. -/
def coreResetState : CoreState := ⟨0, 0⟩

/-- One Gear-hash update, `fp = (fp << 1) + table[b]` on `uint64`
(core.go, the per-byte update in both scan phases). -/
def gearUpdate (cfg : CoreCfg) (fp b : Nat) : Nat :=
  (fp * 2 + cfg.table b) % U64

/-- Result of scanning a segment with one mask: either a boundary after
consuming `consumed ≥ 1` bytes, or the segment is exhausted.  The Go
code expresses this as an 8x-unrolled loop with early `return`
(core.go lines 160-229 and 244-313); the unrolling performs the same
per-byte update and test in the same order, so a simple recursion is
its faithful meaning. -/
inductive ScanRes where
  | hit (consumed : Nat) (fp : Nat)
  | miss (fp : Nat)
deriving Repr, DecidableEq

/-- Scan a byte segment with a fixed mask: update the fingerprint per
byte and stop at the first byte whose updated fingerprint ANDs with the
mask to zero. -/
def scanMask (cfg : CoreCfg) (mask : Nat) (fp : Nat) : List Nat → ScanRes
  | [] => .miss fp
  | b :: rest =>
    let fp2 := gearUpdate cfg fp b
    if fp2 &&& mask = 0 then .hit 1 fp2
    else
      match scanMask cfg mask fp2 rest with
      | .hit n f => .hit (n + 1) f
      | .miss f => .miss f

/-- The triple returned by `ChunkerCore.FindBoundary`. -/
structure FBResult where
  boundary : Nat
  hash : Nat
  found : Bool
deriving Repr, DecidableEq

/-- `ChunkerCore.FindBoundary` (core.go lines 123-331).  The phases of
the Go code, in order: an early return on empty data (returning
boundary 0); phase 0 skipping to `minSize` without hashing; phase 1
scanning `[pos, normSize)` with `maskS`; phase 2 scanning
`[pos, maxSize)` with `maskL`; phase 3 forcing a cut once
`pos >= maxSize`; otherwise the state is persisted and `found=false`
returned.  Go guards each phase with `pos < bound && dataLen > 0`;
since the per-phase extent is `min (bound - pos) dataLen` computed with
truncating subtraction, a disabled phase scans the empty segment, which
is the identity, so the guards need no separate encoding.  On every
`return .., .., true` site the Go code stores `c.fingerprint = fp;
c.position = 0`, and on the `found=false` exit it stores both `fp` and
`pos`. -/
def findBoundary (cfg : CoreCfg) (s : CoreState) (data : List Nat) :
    FBResult × CoreState :=
  if data.length = 0 then (⟨0, s.fingerprint, false⟩, s)
  else
    let skip := min (cfg.minSize - s.position) data.length
    let pos1 := s.position + skip
    let d1 := data.drop skip
    let e1 := min (cfg.normSize - pos1) d1.length
    match scanMask cfg cfg.maskS s.fingerprint (d1.take e1) with
    | .hit n f => (⟨pos1 + n, f, true⟩, ⟨f, 0⟩)
    | .miss f1 =>
      let pos2 := pos1 + e1
      let d2 := d1.drop e1
      let e2 := min (cfg.maxSize - pos2) d2.length
      match scanMask cfg cfg.maskL f1 (d2.take e2) with
      | .hit n f => (⟨pos2 + n, f, true⟩, ⟨f, 0⟩)
      | .miss f2 =>
        let pos3 := pos2 + e2
        if cfg.maxSize ≤ pos3 then (⟨pos3, f2, true⟩, ⟨f2, 0⟩)
        else (⟨pos3, f2, false⟩, ⟨f2, pos3⟩)

/-! Configuration, options and validation (options.go). -/

/-- The `config` struct of options.go (lines 54-61): `minSize`,
`targetSize`, `maxSize` are Go `uint32`, `normLevel` is `uint8`,
`seed` is `uint64`, and `bufferSize` is a signed Go `int`. -/
structure GoConfig where
  minSize : Nat
  targetSize : Nat
  maxSize : Nat
  normLevel : Nat
  seed : Nat
  bufferSize : Int
deriving Repr, DecidableEq

/-- The default configuration built by `NewChunker` (chunker.go) and
`defaultConfig`: 16 KiB / 64 KiB / 256 KiB, normalization level 2,
seed 0, 512 KiB buffer. -/
def defaultGoConfig : GoConfig := ⟨16384, 65536, 262144, 2, 0, 524288⟩

/-- The distinct sentinel errors of options.go (lines 8-29). -/
inductive ConfigError where
  | invalidMinSize
  | invalidTargetSize
  | targetSizeTooSmall
  | invalidMaxSize
  | maxSizeTooSmall
  | invalidNormLevel
  | invalidBufferSize
deriving Repr, DecidableEq

/-- `config.validate` (options.go lines 64-86): the four ordered checks,
then the auto-raise of `bufferSize` to `maxSize` when supplied smaller. -/
def validate (c : GoConfig) : Except ConfigError GoConfig :=
  if c.minSize = 0 then .error .invalidMinSize
  else if c.targetSize ≤ c.minSize then .error .targetSizeTooSmall
  else if c.maxSize ≤ c.targetSize then .error .maxSizeTooSmall
  else if 8 < c.normLevel then .error .invalidNormLevel
  else .ok { c with
    bufferSize := if c.bufferSize < (c.maxSize : Int) then (c.maxSize : Int)
                  else c.bufferSize }

/-- The bit-length loop of `computeMasks` (options.go lines 91-97):
`bits = 0; for tmp > 1 { tmp >>= 1; bits++ }`. -/
def bitsOf (t : Nat) : Nat :=
  if t ≤ 1 then 0 else bitsOf (t / 2) + 1

/-- `config.computeMasks` (options.go lines 89-116): returns
`(maskS, maskL, normSize, bits)`. -/
def computeMasks (c : GoConfig) : Nat × Nat × Nat × Nat :=
  let bits := bitsOf c.targetSize
  let maskL := 2 ^ bits - 1
  let maskS := if 0 < bits then 2 ^ (bits - 1) - 1 else 0
  let normSize := c.minSize + ((c.targetSize - c.minSize) >>> c.normLevel)
  (maskS, maskL, normSize, bits)

/-- `WithMinSize` (options.go lines 119-129). -/
def withMinSize (size : Nat) (c : GoConfig) : Except ConfigError GoConfig :=
  if size = 0 then .error .invalidMinSize else .ok { c with minSize := size }

/-- `WithTargetSize` (options.go lines 132-142). -/
def withTargetSize (size : Nat) (c : GoConfig) : Except ConfigError GoConfig :=
  if size = 0 then .error .invalidTargetSize
  else .ok { c with targetSize := size }

/-- `WithMaxSize` (options.go lines 145-155). -/
def withMaxSize (size : Nat) (c : GoConfig) : Except ConfigError GoConfig :=
  if size = 0 then .error .invalidMaxSize else .ok { c with maxSize := size }

/-- `WithNormalization` (options.go lines 160-170). -/
def withNormalization (level : Nat) (c : GoConfig) :
    Except ConfigError GoConfig :=
  if 8 < level then .error .invalidNormLevel
  else .ok { c with normLevel := level }

/-- `WithSeed` (options.go lines 174-180): never fails. -/
def withSeed (seed : Nat) (c : GoConfig) : Except ConfigError GoConfig :=
  .ok { c with seed := seed }

/-- `WithBufferSize` (options.go lines 184-194): rejects a non-positive
size. -/
def withBufferSize (size : Int) (c : GoConfig) : Except ConfigError GoConfig :=
  if size ≤ 0 then .error .invalidBufferSize
  else .ok { c with bufferSize := size }

/-- A set of explicitly supplied options: `none` means the option was
not passed to the constructor.  Each Go `Option` writes one distinct
field, so a caller-supplied option list is, up to the order in which
errors surface, one value of this record. -/
structure Opts where
  minSize : Option Nat := none
  targetSize : Option Nat := none
  maxSize : Option Nat := none
  normLevel : Option Nat := none
  seed : Option Nat := none
  bufferSize : Option Int := none
deriving Repr, DecidableEq

/-- Apply one optional option. -/
def applyOpt (f : α → GoConfig → Except ConfigError GoConfig)
    (v : Option α) (c : GoConfig) : Except ConfigError GoConfig :=
  match v with
  | none => .ok c
  | some x => f x c

/-- The option-application loop of `NewChunkerCore` / `NewChunker`
(core.go lines 28-38, chunker.go lines 142-161): start from the default
configuration, run every supplied option, then `validate`. -/
def newCoreConfig (o : Opts) : Except ConfigError GoConfig := do
  let c := defaultGoConfig
  let c ← applyOpt withMinSize o.minSize c
  let c ← applyOpt withTargetSize o.targetSize c
  let c ← applyOpt withMaxSize o.maxSize c
  let c ← applyOpt withNormalization o.normLevel c
  let c ← applyOpt withSeed o.seed c
  let c ← applyOpt withBufferSize o.bufferSize c
  validate c

/-- The value a field ends with after option application: the supplied
value, or the default. -/
def effMin (o : Opts) : Nat := o.minSize.getD defaultGoConfig.minSize

/-- Effective target size after option application. -/
def effTarget (o : Opts) : Nat := o.targetSize.getD defaultGoConfig.targetSize

/-- Effective maximum size after option application. -/
def effMax (o : Opts) : Nat := o.maxSize.getD defaultGoConfig.maxSize

/-- Effective normalization level after option application. -/
def effNorm (o : Opts) : Nat := o.normLevel.getD defaultGoConfig.normLevel

/-- The `ChunkerCore` configuration built from a validated config by
`NewChunkerCore` (core.go lines 40-53), with the Gear table abstracted
as a function of the byte value. -/
def mkCoreCfg (table : Nat → Nat) (c : GoConfig) : CoreCfg :=
  let m := computeMasks c
  ⟨table, c.minSize, m.2.2.1, c.maxSize, m.1, m.2.1⟩

/-- The scanner configurations reachable from a validated `config`
(options.go `validate` plus `computeMasks`): a positive minimum, a
normalization boundary between `minSize` and strictly below `maxSize`. -/
structure ValidCore (cfg : CoreCfg) : Prop where
  min_pos : 0 < cfg.minSize
  min_le_norm : cfg.minSize ≤ cfg.normSize
  norm_lt_max : cfg.normSize < cfg.maxSize

theorem validate_ok_fields (c0 c : GoConfig) (h : validate c0 = .ok c) :
    c.minSize = c0.minSize ∧ c.targetSize = c0.targetSize ∧
    c.maxSize = c0.maxSize ∧ c.normLevel = c0.normLevel ∧
    0 < c0.minSize ∧ c0.minSize < c0.targetSize ∧
    c0.targetSize < c0.maxSize ∧ c0.normLevel ≤ 8 := by
  unfold validate at h
  split at h
  · exact absurd h (by simp)
  · split at h
    · exact absurd h (by simp)
    · split at h
      · exact absurd h (by simp)
      · split at h
        · exact absurd h (by simp)
        · refine ⟨?_, ?_, ?_, ?_, ?_, ?_, ?_, ?_⟩ <;>
            first
            | (cases h with | refl => rfl)
            | omega

/-- A validated configuration yields a scanner configuration with
`0 < minSize ≤ normSize < maxSize`, whatever the Gear table. -/
theorem validate_ok_validCore (table : Nat → Nat) (c0 c : GoConfig)
    (h : validate c0 = .ok c) : ValidCore (mkCoreCfg table c) := by
  obtain ⟨hm, ht, hx, hn, h1, h2, h3, h4⟩ := validate_ok_fields c0 c h
  have hshift : (c.targetSize - c.minSize) >>> c.normLevel ≤
      c.targetSize - c.minSize := by
    simp only [Nat.shiftRight_eq_div_pow]
    exact Nat.div_le_self _ _
  constructor
  · simpa [mkCoreCfg, computeMasks, hm] using h1
  · simp [mkCoreCfg, computeMasks]
  · simp only [mkCoreCfg, computeMasks]
    omega

/-! A per-byte reformulation of the scan.  `findBoundary` mirrors the
Go phase structure; for proofs we show it equal to a left-to-right fold
of single-byte steps, which composes across window splits. -/

/-- Outcome of consuming one byte: continue in a new state, or cut. -/
inductive StepOut where
  | cont (s : CoreState)
  | cut (boundary : Nat) (hash : Nat)
deriving Repr, DecidableEq

/-- Consume one byte: below `minSize` the byte is skipped without
hashing; otherwise the fingerprint is updated and tested against the
mask of the current region, and reaching `maxSize` with no match forces
a cut. -/
def scanByte (cfg : CoreCfg) (s : CoreState) (b : Nat) : StepOut :=
  if s.position < cfg.minSize then .cont ⟨s.fingerprint, s.position + 1⟩
  else
    let fp2 := gearUpdate cfg s.fingerprint b
    let mask := if s.position < cfg.normSize then cfg.maskS else cfg.maskL
    if fp2 &&& mask = 0 then .cut (s.position + 1) fp2
    else if cfg.maxSize ≤ s.position + 1 then .cut (s.position + 1) fp2
    else .cont ⟨fp2, s.position + 1⟩

/-- Fold `scanByte` over a window, reporting like `findBoundary` does
on non-empty input. -/
def scanList (cfg : CoreCfg) (s : CoreState) : List Nat → FBResult × CoreState
  | [] => (⟨s.position, s.fingerprint, false⟩, ⟨s.fingerprint, s.position⟩)
  | b :: rest =>
    match scanByte cfg s b with
    | .cut bd h => (⟨bd, h, true⟩, ⟨h, 0⟩)
    | .cont s2 => scanList cfg s2 rest

theorem scanList_skip (cfg : CoreCfg) (k : Nat) :
    ∀ (data : List Nat) (fp p : Nat), k ≤ data.length →
      p + k ≤ cfg.minSize →
      scanList cfg ⟨fp, p⟩ data = scanList cfg ⟨fp, p + k⟩ (data.drop k) := by
  induction k with
  | zero => intro data fp p _ _; simp
  | succ k ih =>
    intro data fp p hlen hmin
    match data with
    | [] => simp at hlen
    | b :: rest =>
      have hp : p < cfg.minSize := by omega
      have hb : scanByte cfg ⟨fp, p⟩ b = .cont ⟨fp, p + 1⟩ := by
        simp [scanByte, hp]
      have h1 : scanList cfg ⟨fp, p⟩ (b :: rest) =
          scanList cfg ⟨fp, p + 1⟩ rest := by
        rw [scanList, hb]
      rw [h1, ih rest fp (p + 1) (by simpa using hlen) (by omega)]
      have : p + 1 + k = p + (k + 1) := by omega
      simp [this]

theorem scanList_regS (cfg : CoreCfg) (seg : List Nat) :
    ∀ (rest : List Nat) (fp p : Nat), cfg.minSize ≤ p →
      p + seg.length ≤ cfg.normSize → cfg.normSize < cfg.maxSize →
      scanList cfg ⟨fp, p⟩ (seg ++ rest) =
        match scanMask cfg cfg.maskS fp seg with
        | .hit n h => (⟨p + n, h, true⟩, ⟨h, 0⟩)
        | .miss f => scanList cfg ⟨f, p + seg.length⟩ rest := by
  induction seg with
  | nil => intro rest fp p _ _ _; simp [scanMask]
  | cons b seg ih =>
    intro rest fp p hminp hnorm hnm
    have hp : ¬ p < cfg.minSize := by omega
    have hpn : p < cfg.normSize := by simp at hnorm; omega
    have hpm : ¬ cfg.maxSize ≤ p + 1 := by omega
    by_cases hz : gearUpdate cfg fp b &&& cfg.maskS = 0
    · have hb : scanByte cfg ⟨fp, p⟩ b =
          .cut (p + 1) (gearUpdate cfg fp b) := by
        simp [scanByte, hp, hpn, hz]
      rw [List.cons_append, scanList, hb]
      simp [scanMask, hz]
    · have hb : scanByte cfg ⟨fp, p⟩ b =
          .cont ⟨gearUpdate cfg fp b, p + 1⟩ := by
        simp [scanByte, hp, hpn, hz, hpm]
      rw [List.cons_append, scanList, hb]
      show scanList cfg ⟨gearUpdate cfg fp b, p + 1⟩ (seg ++ rest) = _
      rw [ih rest (gearUpdate cfg fp b) (p + 1) (by omega)
        (by simp at hnorm ⊢; omega) hnm]
      rw [show scanMask cfg cfg.maskS fp (b :: seg) =
          match scanMask cfg cfg.maskS (gearUpdate cfg fp b) seg with
          | .hit n f => .hit (n + 1) f
          | .miss f => .miss f from by
        rw [scanMask]; simp [hz]]
      cases hs : scanMask cfg cfg.maskS (gearUpdate cfg fp b) seg with
      | hit n f => simp [hs]; omega
      | miss f =>
        simp [hs]
        have : p + 1 + seg.length = p + (seg.length + 1) := by omega
        simp [this]

theorem scanList_regL (cfg : CoreCfg) (seg : List Nat) :
    ∀ (rest : List Nat) (fp p : Nat), cfg.minSize ≤ p →
      cfg.normSize ≤ p → p < cfg.maxSize → p + seg.length ≤ cfg.maxSize →
      scanList cfg ⟨fp, p⟩ (seg ++ rest) =
        match scanMask cfg cfg.maskL fp seg with
        | .hit n h => (⟨p + n, h, true⟩, ⟨h, 0⟩)
        | .miss f =>
          if cfg.maxSize ≤ p + seg.length then
            (⟨p + seg.length, f, true⟩, ⟨f, 0⟩)
          else scanList cfg ⟨f, p + seg.length⟩ rest := by
  induction seg with
  | nil =>
    intro rest fp p _ _ hpm _
    simp [scanMask]
    rw [if_neg (show ¬ cfg.maxSize ≤ p by omega)]
  | cons b seg ih =>
    intro rest fp p hminp hnormp hpm hsegm
    have hp : ¬ p < cfg.minSize := by omega
    have hpn : ¬ p < cfg.normSize := by omega
    by_cases hz : gearUpdate cfg fp b &&& cfg.maskL = 0
    · have hb : scanByte cfg ⟨fp, p⟩ b =
          .cut (p + 1) (gearUpdate cfg fp b) := by
        simp [scanByte, hp, hpn, hz]
      rw [List.cons_append, scanList, hb]
      simp [scanMask, hz]
    · by_cases hhard : cfg.maxSize ≤ p + 1
      · have hseg : seg = [] := by
          simp at hsegm
          have : seg.length = 0 := by omega
          exact List.length_eq_zero.mp this
        subst hseg
        have hb : scanByte cfg ⟨fp, p⟩ b =
            .cut (p + 1) (gearUpdate cfg fp b) := by
          simp [scanByte, hp, hpn, hz, hhard]
        rw [List.cons_append, scanList, hb]
        simp [scanMask, hz, hhard]
      · have hb : scanByte cfg ⟨fp, p⟩ b =
            .cont ⟨gearUpdate cfg fp b, p + 1⟩ := by
          simp [scanByte, hp, hpn, hz, hhard]
        rw [List.cons_append, scanList, hb]
        show scanList cfg ⟨gearUpdate cfg fp b, p + 1⟩ (seg ++ rest) = _
        rw [ih rest (gearUpdate cfg fp b) (p + 1) (by omega) (by omega)
          (by omega) (by simp at hsegm ⊢; omega)]
        rw [show scanMask cfg cfg.maskL fp (b :: seg) =
            match scanMask cfg cfg.maskL (gearUpdate cfg fp b) seg with
            | .hit n f => .hit (n + 1) f
            | .miss f => .miss f from by
          rw [scanMask]; simp [hz]]
        cases hs : scanMask cfg cfg.maskL (gearUpdate cfg fp b) seg with
        | hit n f => simp [hs]; omega
        | miss f =>
          simp [hs]
          have harith : p + 1 + seg.length = p + (seg.length + 1) := by omega
          rw [harith]

theorem scanList_phase2 (cfg : CoreCfg) (hmn : cfg.minSize ≤ cfg.normSize)
    (f1 p2 : Nat) (d2 : List Nat) (hm2 : cfg.minSize ≤ p2)
    (hn2 : cfg.normSize ≤ p2 ∨ d2 = []) (h2m : p2 < cfg.maxSize) :
    scanList cfg ⟨f1, p2⟩ d2 =
      match scanMask cfg cfg.maskL f1
          (d2.take (min (cfg.maxSize - p2) d2.length)) with
      | .hit n h => (⟨p2 + n, h, true⟩, ⟨h, 0⟩)
      | .miss f2 =>
        if cfg.maxSize ≤ p2 + min (cfg.maxSize - p2) d2.length then
          (⟨p2 + min (cfg.maxSize - p2) d2.length, f2, true⟩, ⟨f2, 0⟩)
        else (⟨p2 + min (cfg.maxSize - p2) d2.length, f2, false⟩,
          ⟨f2, p2 + min (cfg.maxSize - p2) d2.length⟩) := by
  rcases hn2 with hn2 | rfl
  · by_cases hd2 : d2 = []
    · subst hd2
      simp [scanList, scanMask]
      rw [if_neg (show ¬ cfg.maxSize ≤ p2 by omega)]
    · have he2 : min (cfg.maxSize - p2) d2.length ≤ d2.length :=
        Nat.min_le_right _ _
      have hsplit := List.take_append_drop
        (min (cfg.maxSize - p2) d2.length) d2
      have := scanList_regL cfg
        (d2.take (min (cfg.maxSize - p2) d2.length))
        (d2.drop (min (cfg.maxSize - p2) d2.length)) f1 p2 hm2 hn2 h2m
        (by
          rw [List.length_take]
          omega)
      rw [hsplit] at this
      rw [this]
      rw [List.length_take]
      have hminlen : min (min (cfg.maxSize - p2) d2.length) d2.length =
          min (cfg.maxSize - p2) d2.length := by omega
      rw [hminlen]
      cases hs : scanMask cfg cfg.maskL f1
          (d2.take (min (cfg.maxSize - p2) d2.length)) with
      | hit n h => rfl
      | miss f2 =>
        simp only []
        by_cases hhard : cfg.maxSize ≤ p2 + min (cfg.maxSize - p2) d2.length
        · rw [if_pos hhard, if_pos hhard]
        · rw [if_neg hhard, if_neg hhard]
          have he2' : min (cfg.maxSize - p2) d2.length = d2.length := by
            omega
          rw [he2', List.drop_length, scanList]
  · simp [scanList, scanMask]
    rw [if_neg (show ¬ cfg.maxSize ≤ p2 by omega)]

theorem scanList_phases (cfg : CoreCfg) (hmn : cfg.minSize ≤ cfg.normSize)
    (hnm : cfg.normSize < cfg.maxSize) (fp p1 : Nat) (d1 : List Nat)
    (hm1 : cfg.minSize ≤ p1) (h1m : p1 < cfg.maxSize) :
    scanList cfg ⟨fp, p1⟩ d1 =
      match scanMask cfg cfg.maskS fp
          (d1.take (min (cfg.normSize - p1) d1.length)) with
      | .hit n h => (⟨p1 + n, h, true⟩, ⟨h, 0⟩)
      | .miss f1 =>
        match scanMask cfg cfg.maskL f1
            ((d1.drop (min (cfg.normSize - p1) d1.length)).take
              (min (cfg.maxSize - (p1 + min (cfg.normSize - p1) d1.length))
                (d1.drop (min (cfg.normSize - p1) d1.length)).length)) with
        | .hit n h =>
          (⟨p1 + min (cfg.normSize - p1) d1.length + n, h, true⟩, ⟨h, 0⟩)
        | .miss f2 =>
          if cfg.maxSize ≤ p1 + min (cfg.normSize - p1) d1.length +
              min (cfg.maxSize - (p1 + min (cfg.normSize - p1) d1.length))
                (d1.drop (min (cfg.normSize - p1) d1.length)).length then
            (⟨p1 + min (cfg.normSize - p1) d1.length +
              min (cfg.maxSize - (p1 + min (cfg.normSize - p1) d1.length))
                (d1.drop (min (cfg.normSize - p1) d1.length)).length,
              f2, true⟩, ⟨f2, 0⟩)
          else
            (⟨p1 + min (cfg.normSize - p1) d1.length +
              min (cfg.maxSize - (p1 + min (cfg.normSize - p1) d1.length))
                (d1.drop (min (cfg.normSize - p1) d1.length)).length,
              f2, false⟩,
              ⟨f2, p1 + min (cfg.normSize - p1) d1.length +
                min (cfg.maxSize - (p1 + min (cfg.normSize - p1) d1.length))
                  (d1.drop (min (cfg.normSize - p1) d1.length)).length⟩) := by
  by_cases hnp : cfg.normSize ≤ p1
  · have he1 : min (cfg.normSize - p1) d1.length = 0 := by omega
    rw [he1]
    simp only [List.take_zero, List.drop_zero, scanMask, Nat.add_zero]
    exact scanList_phase2 cfg hmn fp p1 d1 hm1 (Or.inl hnp) h1m
  · push_neg at hnp
    have hsplit := List.take_append_drop
      (min (cfg.normSize - p1) d1.length) d1
    have hreg := scanList_regS cfg
      (d1.take (min (cfg.normSize - p1) d1.length))
      (d1.drop (min (cfg.normSize - p1) d1.length)) fp p1 hm1
      (by
        rw [List.length_take]
        omega) hnm
    rw [hsplit] at hreg
    rw [hreg, List.length_take]
    have hminlen : min (min (cfg.normSize - p1) d1.length) d1.length =
        min (cfg.normSize - p1) d1.length := by omega
    rw [hminlen]
    cases hs : scanMask cfg cfg.maskS fp
        (d1.take (min (cfg.normSize - p1) d1.length)) with
    | hit n h => rfl
    | miss f1 =>
      have hn2 : cfg.normSize ≤ p1 + min (cfg.normSize - p1) d1.length ∨
          d1.drop (min (cfg.normSize - p1) d1.length) = [] := by
        by_cases hfull : min (cfg.normSize - p1) d1.length = d1.length
        · right
          rw [hfull, List.drop_length]
        · left
          omega
      exact scanList_phase2 cfg hmn f1 _ _ (by omega) hn2 (by omega)

/-- `findBoundary` is the per-byte fold `scanList` whenever the window
is non-empty and the entering position is below `maxSize` (the only
states the scanner itself ever persists). -/
theorem findBoundary_eq_scanList (cfg : CoreCfg) (hv : ValidCore cfg)
    (s : CoreState) (data : List Nat) (hpos : s.position < cfg.maxSize)
    (hd : data ≠ []) : findBoundary cfg s data = scanList cfg s data := by
  obtain ⟨fp, p⟩ := s
  obtain ⟨h0, hmn, hnm⟩ := hv
  have hlen : ¬ data.length = 0 := by
    simpa [List.length_eq_zero] using hd
  simp only [CoreState.position] at hpos
  rw [findBoundary, if_neg hlen]
  simp only []
  by_cases hp : p < cfg.minSize
  · by_cases hall : data.length ≤ cfg.minSize - p
    · have hsk : min (cfg.minSize - p) data.length = data.length := by omega
      rw [hsk, List.drop_length]
      have hskip := scanList_skip cfg data.length data fp p (le_refl _)
        (by omega)
      rw [List.drop_length] at hskip
      rw [hskip]
      simp [scanList, scanMask]
      omega
    · have hsk : min (cfg.minSize - p) data.length = cfg.minSize - p := by
        omega
      rw [hsk]
      have hskip := scanList_skip cfg (cfg.minSize - p) data fp p
        (by omega) (by omega)
      rw [hskip]
      have hpmin : p + (cfg.minSize - p) = cfg.minSize := by omega
      rw [hpmin]
      exact (scanList_phases cfg hmn hnm fp cfg.minSize _ (le_refl _)
        (by omega)).symm
  · have hsk : min (cfg.minSize - p) data.length = 0 := by omega
    rw [hsk, List.drop_zero, Nat.add_zero]
    exact (scanList_phases cfg hmn hnm fp p data (by omega) hpos).symm

theorem scanList_spec (cfg : CoreCfg) (hv : ValidCore cfg) :
    ∀ (data : List Nat) (fp p : Nat), p < cfg.maxSize →
      ((scanList cfg ⟨fp, p⟩ data).1.found = true →
        p < (scanList cfg ⟨fp, p⟩ data).1.boundary ∧
        (scanList cfg ⟨fp, p⟩ data).1.boundary ≤ p + data.length ∧
        (scanList cfg ⟨fp, p⟩ data).1.boundary ≤ cfg.maxSize ∧
        cfg.minSize < (scanList cfg ⟨fp, p⟩ data).1.boundary ∧
        (scanList cfg ⟨fp, p⟩ data).2 =
          ⟨(scanList cfg ⟨fp, p⟩ data).1.hash, 0⟩) ∧
      ((scanList cfg ⟨fp, p⟩ data).1.found = false →
        (scanList cfg ⟨fp, p⟩ data).1.boundary = p + data.length ∧
        p + data.length < cfg.maxSize ∧
        (scanList cfg ⟨fp, p⟩ data).2 =
          ⟨(scanList cfg ⟨fp, p⟩ data).1.hash, p + data.length⟩) := by
  obtain ⟨h0, hmn, hnm⟩ := hv
  intro data
  induction data with
  | nil =>
    intro fp p hpm
    constructor
    · intro h
      simp [scanList] at h
    · intro _
      simp [scanList]
      omega
  | cons b rest ih =>
    intro fp p hpm
    by_cases hp : p < cfg.minSize
    · have hb : scanByte cfg ⟨fp, p⟩ b = .cont ⟨fp, p + 1⟩ := by
        simp [scanByte, hp]
      have hstep : scanList cfg ⟨fp, p⟩ (b :: rest) =
          scanList cfg ⟨fp, p + 1⟩ rest := by
        rw [scanList, hb]
      rw [hstep]
      have hlt : p + 1 < cfg.maxSize := by omega
      obtain ⟨ihT, ihF⟩ := ih fp (p + 1) hlt
      constructor
      · intro h
        obtain ⟨a1, a2, a3, a4, a5⟩ := ihT h
        refine ⟨by omega, by simp; omega, a3, a4, a5⟩
      · intro h
        obtain ⟨a1, a2, a3⟩ := ihF h
        refine ⟨by simp; omega, by simp; omega, by rw [a3]; congr 1; simp; omega⟩
    · by_cases hz : gearUpdate cfg fp b &&&
          (if p < cfg.normSize then cfg.maskS else cfg.maskL) = 0
      · have hb : scanByte cfg ⟨fp, p⟩ b =
            .cut (p + 1) (gearUpdate cfg fp b) := by
          simp only [scanByte, if_neg hp]
          rw [if_pos hz]
        have hstep : scanList cfg ⟨fp, p⟩ (b :: rest) =
            (⟨p + 1, gearUpdate cfg fp b, true⟩,
              ⟨gearUpdate cfg fp b, 0⟩) := by
          rw [scanList, hb]
        rw [hstep]
        constructor
        · intro _
          refine ⟨by simp <;> omega, by simp <;> omega, by simp <;> omega,
            by simp <;> omega, rfl⟩
        · intro h
          simp at h
      · by_cases hhard : cfg.maxSize ≤ p + 1
        · have hb : scanByte cfg ⟨fp, p⟩ b =
              .cut (p + 1) (gearUpdate cfg fp b) := by
            simp only [scanByte, if_neg hp]
            rw [if_neg hz, if_pos hhard]
          have hstep : scanList cfg ⟨fp, p⟩ (b :: rest) =
              (⟨p + 1, gearUpdate cfg fp b, true⟩,
                ⟨gearUpdate cfg fp b, 0⟩) := by
            rw [scanList, hb]
          rw [hstep]
          constructor
          · intro _
            refine ⟨by simp <;> omega, by simp <;> omega, by simp <;> omega,
              by simp <;> omega, rfl⟩
          · intro h
            simp at h
        · have hb : scanByte cfg ⟨fp, p⟩ b =
              .cont ⟨gearUpdate cfg fp b, p + 1⟩ := by
            simp only [scanByte, if_neg hp]
            rw [if_neg hz, if_neg hhard]
          have hstep : scanList cfg ⟨fp, p⟩ (b :: rest) =
              scanList cfg ⟨gearUpdate cfg fp b, p + 1⟩ rest := by
            rw [scanList, hb]
          rw [hstep]
          have hlt : p + 1 < cfg.maxSize := by omega
          obtain ⟨ihT, ihF⟩ := ih (gearUpdate cfg fp b) (p + 1) hlt
          constructor
          · intro h
            obtain ⟨a1, a2, a3, a4, a5⟩ := ihT h
            refine ⟨by omega, by simp; omega, a3, a4, a5⟩
          · intro h
            obtain ⟨a1, a2, a3⟩ := ihF h
            refine ⟨by simp; omega, by simp; omega,
              by rw [a3]; congr 1; simp; omega⟩

theorem scanList_append (cfg : CoreCfg) :
    ∀ (xs ys : List Nat) (s : CoreState),
      scanList cfg s (xs ++ ys) =
        if (scanList cfg s xs).1.found then scanList cfg s xs
        else scanList cfg (scanList cfg s xs).2 ys := by
  intro xs
  induction xs with
  | nil =>
    intro ys s
    obtain ⟨fp, p⟩ := s
    simp [scanList]
  | cons b rest ih =>
    intro ys s
    rw [List.cons_append, scanList, scanList]
    cases hb : scanByte cfg s b with
    | cut bd h => simp
    | cont s2 => exact ih ys s2

theorem findBoundary_at_max (cfg : CoreCfg) (hv : ValidCore cfg)
    (fp p : Nat) (data : List Nat) (hp : cfg.maxSize ≤ p)
    (hd : data ≠ []) :
    findBoundary cfg ⟨fp, p⟩ data = (⟨p, fp, true⟩, ⟨fp, 0⟩) := by
  obtain ⟨h0, hmn, hnm⟩ := hv
  have hlen : ¬ data.length = 0 := by
    simpa [List.length_eq_zero] using hd
  rw [findBoundary, if_neg hlen]
  simp only [CoreState.position, CoreState.fingerprint]
  have hsk : min (cfg.minSize - p) data.length = 0 := by omega
  have he1 : min (cfg.normSize - (p + 0)) (data.drop 0).length = 0 := by
    simp
    omega
  rw [hsk, he1]
  simp only [List.take_zero, List.drop_zero, scanMask, Nat.add_zero]
  have he2 : min (cfg.maxSize - p) data.length = 0 := by omega
  rw [he2]
  simp only [List.take_zero, scanMask, Nat.add_zero]
  rw [if_pos hp]

/-- Every `found=true` return site of `FindBoundary` persists the
boundary hash as the fingerprint and resets the position to zero
(core.go, each `c.fingerprint = fp; c.position = 0; return ..` block). -/
theorem findBoundary_found_state (cfg : CoreCfg) (s : CoreState)
    (data : List Nat) :
    (findBoundary cfg s data).1.found = true →
    (findBoundary cfg s data).2 =
      ⟨(findBoundary cfg s data).1.hash, 0⟩ := by
  unfold findBoundary
  split
  · intro h
    simp at h
  · simp only []
    split
    · intro _
      rfl
    · split
      · intro _
        rfl
      · split
        · intro _
          rfl
        · intro h
          simp at h

/-- Bounds and state facts of `FindBoundary` for non-empty windows from
a position below `maxSize`: a found boundary lies in
`(position, position + len] ∩ (minSize, maxSize]` and resets the
position; a miss means the whole window was consumed with the final
position still below `maxSize`, and both get persisted. -/
theorem findBoundary_spec (cfg : CoreCfg) (hv : ValidCore cfg)
    (s : CoreState) (data : List Nat) (hpos : s.position < cfg.maxSize)
    (hd : data ≠ []) :
    ((findBoundary cfg s data).1.found = true →
      s.position < (findBoundary cfg s data).1.boundary ∧
      (findBoundary cfg s data).1.boundary ≤ s.position + data.length ∧
      (findBoundary cfg s data).1.boundary ≤ cfg.maxSize ∧
      cfg.minSize < (findBoundary cfg s data).1.boundary ∧
      (findBoundary cfg s data).2 =
        ⟨(findBoundary cfg s data).1.hash, 0⟩) ∧
    ((findBoundary cfg s data).1.found = false →
      (findBoundary cfg s data).1.boundary = s.position + data.length ∧
      s.position + data.length < cfg.maxSize ∧
      (findBoundary cfg s data).2 =
        ⟨(findBoundary cfg s data).1.hash, s.position + data.length⟩) := by
  obtain ⟨fp, p⟩ := s
  rw [findBoundary_eq_scanList cfg hv ⟨fp, p⟩ data hpos hd]
  exact scanList_spec cfg hv data fp p hpos

/-! The streaming wrapper `Chunker` (chunker.go) over a scripted
`io.Reader`. -/

/-- One scripted behaviour step of the abstract byte source: `give bs`
makes the bytes `bs` available to the next reads (a `Read` call
delivers at most the requested count and the remainder stays
available, exactly as `bytes.Reader` does); `fail e` makes the next
`Read` return error code `e`.  An exhausted script reads as persistent
end-of-source. -/
inductive RStep where
  | give (bs : List Nat)
  | fail (e : Nat)
deriving Repr, DecidableEq

/-- Status of an `io.ReadFull` call: completely filled, stopped by
end-of-source (Go `io.EOF` / `io.ErrUnexpectedEOF`, which `fillBuffer`
treats alike), or stopped by another error. -/
inductive RFStatus where
  | full
  | eofHit
  | ioErr (e : Nat)
deriving Repr, DecidableEq

/-- `io.ReadFull(reader, buf)` against the scripted source: loop reads
until `req` bytes are gathered or the source reports end/error,
returning the bytes written, the status, and the remaining script.
A `Read` that returns bytes together with an error is scripted as a
`give` followed by a `fail`. -/
def readFull (script : List RStep) (req : Nat) :
    List Nat × RFStatus × List RStep :=
  if req = 0 then ([], .full, script)
  else
    match script with
    | [] => ([], .eofHit, [])
    | .give bs :: rest =>
      if req ≤ bs.length then
        (bs.take req, .full,
          if req < bs.length then .give (bs.drop req) :: rest else rest)
      else
        let r := readFull rest (req - bs.length)
        (bs ++ r.1, r.2.1, r.2.2)
    | .fail e :: rest => ([], .ioErr e, rest)

/-- The `Chunker` struct (chunker.go lines 131-139).  The backing array
of the Go slice `buf` is kept in full (`backing`, of constant length
`cap`), with `bufLen` the current slice length `len(c.buf)`; this keeps
the bytes beyond `len` that Go retains in the array and that
`Reset` re-exposes via `buf[:cap(buf)]`. -/
structure ChunkerState where
  core : CoreState
  script : List RStep
  backing : List Nat
  bufLen : Nat
  cursor : Nat
  offset : Nat
  eof : Bool
deriving Repr, DecidableEq

/-- `NewChunker` (chunker.go lines 166-173): a zeroed buffer of
`bufferSize` bytes (`make([]byte, ..)`), cursor at the end so the first
`Next` triggers a read, offset 0. -/
def initChunker (cap : Nat) (script : List RStep) : ChunkerState :=
  ⟨⟨0, 0⟩, script, List.replicate cap 0, cap, cap, 0, false⟩

/-- The current slice `c.buf`. -/
def bufOf (c : ChunkerState) : List Nat := c.backing.take c.bufLen

/-- The unconsumed window `c.buf[c.cursor:]`. -/
def window (c : ChunkerState) : List Nat := (bufOf c).drop c.cursor

/-- `Chunker.fillBuffer` (chunker.go lines 178-204): if the unconsumed
tail is at least `maxSize` long, do nothing; otherwise compact it to
the front (`copy(c.buf[:n], c.buf[cursor:])`, `cursor = 0`), then
either shrink the slice to the tail when the source is already
exhausted, or `io.ReadFull` into `c.buf[n:]`, shrinking and latching
`eof` on end-of-source and returning any other error with the partial
write retained.  Returns `(some e, state)` for an I/O error. -/
def fillBuffer (cfg : CoreCfg) (c : ChunkerState) :
    Option Nat × ChunkerState :=
  let n := c.bufLen - c.cursor
  if cfg.maxSize ≤ n then (none, c)
  else
    let backing1 := (c.backing.take c.bufLen).drop c.cursor ++
      c.backing.drop n
    if c.eof then
      (none, { c with backing := backing1, bufLen := n, cursor := 0 })
    else
      let r := readFull c.script (c.bufLen - n)
      let backing2 := backing1.take n ++ r.1 ++
        backing1.drop (n + r.1.length)
      match r.2.1 with
      | .full =>
        (none, { c with backing := backing2, cursor := 0, script := r.2.2 })
      | .eofHit =>
        (none, { c with
          backing := backing2, bufLen := n + r.1.length,
          cursor := 0, script := r.2.2, eof := true })
      | .ioErr e =>
        (some e, { c with
          backing := backing2, cursor := 0, script := r.2.2 })

/-- A chunk record (chunker.go lines 119-124). -/
structure GoChunk where
  offset : Nat
  length : Nat
  hash : Nat
  data : List Nat
deriving Repr, DecidableEq

/-- The error outcomes of `Chunker.Next`: `io.EOF` as the normal
terminal signal, or a propagated source error. -/
inductive NextErr where
  | eofSig
  | ioErr (e : Nat)
deriving Repr, DecidableEq

/-- `Chunker.Next` (chunker.go lines 211-242): refill, report `io.EOF`
on an empty buffer, scan the unconsumed window; absent a boundary the
whole window is the final chunk; slice out the data, advance cursor and
offset, and reset the scanner. -/
def next (cfg : CoreCfg) (c : ChunkerState) :
    Except NextErr GoChunk × ChunkerState :=
  match fillBuffer cfg c with
  | (some e, c1) => (.error (.ioErr e), c1)
  | (none, c1) =>
    if c1.bufLen = 0 then (.error .eofSig, c1)
    else
      let available := window c1
      let r := (findBoundary cfg c1.core available).1
      let boundary := if r.found then r.boundary else available.length
      (.ok ⟨c1.offset, boundary, r.hash, available.take boundary⟩,
        { c1 with
          core := ⟨0, 0⟩, cursor := c1.cursor + boundary,
          offset := c1.offset + boundary })

/-- `Chunker.Reset` (chunker.go lines 246-253): rebind the source,
reset the scanner, restore the slice to the full backing capacity
(`c.buf = c.buf[:cap(c.buf)]`), place the cursor at the end, clear
offset and the eof latch.  The backing array is reused, not
reallocated. -/
def chunkerReset (c : ChunkerState) (script : List RStep) : ChunkerState :=
  { c with
    core := ⟨0, 0⟩, script := script,
    bufLen := c.backing.length, cursor := c.backing.length,
    offset := 0, eof := false }

/-- Terminal outcome of draining a chunker. -/
inductive Terminal where
  | eos
  | ioErr (e : Nat)
  | fuelOut
deriving Repr, DecidableEq

/-- Drive `Next` repeatedly (the caller loop of the tests and examples)
until `io.EOF`, an error, or the fuel runs out, collecting the chunks. -/
def runChunks (cfg : CoreCfg) : Nat → ChunkerState →
    List GoChunk × Terminal × ChunkerState
  | 0, c => ([], .fuelOut, c)
  | fuel + 1, c =>
    match next cfg c with
    | (.error .eofSig, c1) => ([], .eos, c1)
    | (.error (.ioErr e), c1) => ([], .ioErr e, c1)
    | (.ok ch, c1) =>
      let r := runChunks cfg fuel c1
      (ch :: r.1, r.2)

/-- The bytes a script still delivers before reporting end-of-source
(ignoring error steps, which deliver none). -/
def scriptBytes : List RStep → List Nat
  | [] => []
  | .give bs :: rest => bs ++ scriptBytes rest
  | .fail _ :: rest => scriptBytes rest

/-- Scripts with no error step: the plain sources (for example
`bytes.Reader`) used by the partition and bounds properties. -/
def noFail : List RStep → Bool
  | [] => true
  | .give _ :: rest => noFail rest
  | .fail _ :: _ => false

/-- Concatenation of the data payloads of a chunk list. -/
def chunksData (l : List GoChunk) : List Nat :=
  (l.map GoChunk.data).flatten

/-- Offsets are contiguous starting from `base`: each chunk starts
where the previous one ended. -/
def offsetsChain (base : Nat) : List GoChunk → Bool
  | [] => true
  | ch :: rest => (ch.offset = base : Bool) && offsetsChain (base + ch.length) rest

/-- Every chunk except the last has length at least `m`. -/
def nonLastGE (m : Nat) : List GoChunk → Bool
  | [] => true
  | [_] => true
  | ch :: rest => (m ≤ ch.length : Bool) && nonLastGE m rest

theorem readFull_zero (s : List RStep) : readFull s 0 = ([], .full, s) := by
  rw [readFull.eq_def]
  simp

theorem readFull_nil (req : Nat) (h : req ≠ 0) :
    readFull [] req = ([], .eofHit, []) := by
  rw [readFull.eq_def]
  simp [h]

theorem readFull_give_le (bs : List Nat) (rest : List RStep) (req : Nat)
    (h0 : req ≠ 0) (hle : req ≤ bs.length) :
    readFull (.give bs :: rest) req =
      (bs.take req, .full,
        if req < bs.length then .give (bs.drop req) :: rest else rest) := by
  rw [readFull.eq_def]
  simp [h0, hle]

theorem readFull_give_gt (bs : List Nat) (rest : List RStep) (req : Nat)
    (h0 : req ≠ 0) (hgt : bs.length < req) :
    readFull (.give bs :: rest) req =
      (bs ++ (readFull rest (req - bs.length)).1,
        (readFull rest (req - bs.length)).2.1,
        (readFull rest (req - bs.length)).2.2) := by
  rw [readFull.eq_def]
  simp [h0, Nat.not_le.mpr hgt]

theorem readFull_fail (e : Nat) (rest : List RStep) (req : Nat)
    (h0 : req ≠ 0) : readFull (.fail e :: rest) req = ([], .ioErr e, rest) := by
  rw [readFull.eq_def]
  simp [h0]

theorem readFull_full_length (script : List RStep) :
    ∀ req, (readFull script req).2.1 = .full →
      (readFull script req).1.length = req := by
  induction script with
  | nil =>
    intro req h
    by_cases h0 : req = 0
    · subst h0
      simp [readFull_zero]
    · rw [readFull_nil req h0] at h
      simp at h
  | cons step rest ih =>
    intro req h
    by_cases h0 : req = 0
    · subst h0
      simp [readFull_zero]
    · cases step with
      | give bs =>
        by_cases hle : req ≤ bs.length
        · rw [readFull_give_le bs rest req h0 hle] at h ⊢
          simp [List.length_take]
          omega
        · push_neg at hle
          rw [readFull_give_gt bs rest req h0 hle] at h ⊢
          simp at h ⊢
          rw [ih (req - bs.length) h]
          omega
      | fail e =>
        rw [readFull_fail e rest req h0] at h
        simp at h

theorem readFull_spec (script : List RStep) :
    ∀ req, noFail script = true →
      (readFull script req).1 ++ scriptBytes (readFull script req).2.2 =
        scriptBytes script ∧
      noFail (readFull script req).2.2 = true ∧
      (∀ e, (readFull script req).2.1 ≠ .ioErr e) ∧
      ((readFull script req).2.1 = .eofHit →
        (readFull script req).2.2 = [] ∧
        (readFull script req).1 = scriptBytes script) ∧
      (readFull script req).1.length ≤ req := by
  induction script with
  | nil =>
    intro req _
    by_cases h0 : req = 0
    · subst h0
      simp [readFull_zero, scriptBytes, noFail]
    · rw [readFull_nil req h0]
      simp [scriptBytes, noFail]
  | cons step rest ih =>
    intro req hnf
    by_cases h0 : req = 0
    · subst h0
      simp [readFull_zero, hnf]
    · cases step with
      | give bs =>
        have hnf' : noFail rest = true := by
          simpa [noFail] using hnf
        by_cases hle : req ≤ bs.length
        · rw [readFull_give_le bs rest req h0 hle]
          by_cases hlt : req < bs.length
          · rw [if_pos hlt]
            refine ⟨?_, by simpa [noFail] using hnf', by simp, by simp,
              by simp [List.length_take]⟩
            simp only [scriptBytes]
            rw [← List.append_assoc, List.take_append_drop]
          · rw [if_neg hlt]
            have hreq : req = bs.length := by omega
            subst hreq
            refine ⟨?_, hnf', by simp, by simp, by simp⟩
            simp [scriptBytes]
        · push_neg at hle
          rw [readFull_give_gt bs rest req h0 hle]
          obtain ⟨ib, inf, iio, ieof, ilen⟩ := ih (req - bs.length) hnf'
          refine ⟨?_, inf, ?_, ?_, ?_⟩
          · show bs ++ (readFull rest (req - bs.length)).1 ++
                scriptBytes (readFull rest (req - bs.length)).2.2 =
              scriptBytes (RStep.give bs :: rest)
            rw [List.append_assoc, ib]
            simp [scriptBytes]
          · show ∀ e, (readFull rest (req - bs.length)).2.1 ≠ .ioErr e
            exact iio
          · intro h
            obtain ⟨he, hb⟩ := ieof h
            refine ⟨he, ?_⟩
            show bs ++ (readFull rest (req - bs.length)).1 =
              scriptBytes (RStep.give bs :: rest)
            rw [hb]
            simp [scriptBytes]
          · show (bs ++ (readFull rest (req - bs.length)).1).length ≤ req
            simp
            omega
      | fail e =>
        simp [noFail] at hnf

/-- The invariant relating a chunker state to the bytes `rem` that
remain to be emitted: the scanner is reset, the cursor is inside the
slice, the slice inside the backing array, the backing at least
`maxSize` long, the unconsumed window followed by the bytes still in
the source is exactly `rem`, the source never errors, a latched `eof`
means the script is spent, and before `eof` the slice spans the whole
backing array. -/
structure ChunkerInv (cfg : CoreCfg) (c : ChunkerState) (rem : List Nat) :
    Prop where
  core_init : c.core = ⟨0, 0⟩
  cursor_le : c.cursor ≤ c.bufLen
  buflen_le : c.bufLen ≤ c.backing.length
  cap_ge : cfg.maxSize ≤ c.backing.length
  remaining : window c ++ scriptBytes c.script = rem
  nofail : noFail c.script = true
  eof_script : c.eof = true → c.script = []
  eof_len : c.eof = false → c.bufLen = c.backing.length

theorem window_length (c : ChunkerState) (h : c.bufLen ≤ c.backing.length) :
    (window c).length = c.bufLen - c.cursor := by
  simp [window, bufOf, List.length_take]
  omega

theorem initChunker_inv (cfg : CoreCfg) (cap : Nat) (input : List Nat)
    (hcap : cfg.maxSize ≤ cap) :
    ChunkerInv cfg (initChunker cap [.give input]) input := by
  refine ⟨rfl, le_refl _, by simp [initChunker], by simpa [initChunker],
    ?_, rfl, by simp [initChunker], by simp [initChunker]⟩
  simp [initChunker, window, bufOf, scriptBytes]

theorem fillBuffer_eq_big (cfg : CoreCfg) (c : ChunkerState)
    (h : cfg.maxSize ≤ c.bufLen - c.cursor) : fillBuffer cfg c = (none, c) := by
  simp only [fillBuffer]
  rw [if_pos h]

theorem fillBuffer_eq_eof (cfg : CoreCfg) (c : ChunkerState)
    (h1 : ¬ cfg.maxSize ≤ c.bufLen - c.cursor) (h2 : c.eof = true) :
    fillBuffer cfg c = (none, { c with
      backing := (c.backing.take c.bufLen).drop c.cursor ++
        c.backing.drop (c.bufLen - c.cursor),
      bufLen := c.bufLen - c.cursor, cursor := 0 }) := by
  simp only [fillBuffer, h2]
  rw [if_neg h1]
  simp

theorem fillBuffer_eq_read (cfg : CoreCfg) (c : ChunkerState)
    (h1 : ¬ cfg.maxSize ≤ c.bufLen - c.cursor) (h2 : c.eof = false) :
    fillBuffer cfg c =
      (let n := c.bufLen - c.cursor
       let backing1 := (c.backing.take c.bufLen).drop c.cursor ++
         c.backing.drop n
       let r := readFull c.script (c.bufLen - n)
       let backing2 := backing1.take n ++ r.1 ++
         backing1.drop (n + r.1.length)
       match r.2.1 with
       | .full =>
         (none, { c with backing := backing2, cursor := 0, script := r.2.2 })
       | .eofHit =>
         (none, { c with
           backing := backing2, bufLen := n + r.1.length,
           cursor := 0, script := r.2.2, eof := true })
       | .ioErr e =>
         (some e, { c with
           backing := backing2, cursor := 0, script := r.2.2 })) := by
  simp only [fillBuffer, h2]
  rw [if_neg h1]
  simp

theorem compact_take (c : ChunkerState)
    (h2 : c.bufLen ≤ c.backing.length) :
    ((c.backing.take c.bufLen).drop c.cursor ++
      c.backing.drop (c.bufLen - c.cursor)).take (c.bufLen - c.cursor) =
      window c := by
  exact List.take_left' (by
    simp [List.length_drop, List.length_take]
    omega)

theorem compact_length (c : ChunkerState)
    (h2 : c.bufLen ≤ c.backing.length) :
    ((c.backing.take c.bufLen).drop c.cursor ++
      c.backing.drop (c.bufLen - c.cursor)).length = c.backing.length := by
  simp [List.length_drop, List.length_take]
  omega

theorem fillBuffer_ok (cfg : CoreCfg) (c : ChunkerState) (rem : List Nat)
    (inv : ChunkerInv cfg c rem) :
    (fillBuffer cfg c).1 = none ∧
    ChunkerInv cfg (fillBuffer cfg c).2 rem ∧
    (fillBuffer cfg c).2.offset = c.offset ∧
    (fillBuffer cfg c).2.core = c.core ∧
    ((cfg.maxSize ≤ c.bufLen - c.cursor ∧ (fillBuffer cfg c).2 = c) ∨
      (fillBuffer cfg c).2.cursor = 0) ∧
    (cfg.maxSize ≤ (window (fillBuffer cfg c).2).length ∨
      ((fillBuffer cfg c).2.eof = true ∧ window (fillBuffer cfg c).2 = rem ∧
        (fillBuffer cfg c).2.script = [])) := by
  obtain ⟨icore, icur, ibl, icap, irem, inf, ies, iel⟩ := inv
  by_cases hbig : cfg.maxSize ≤ c.bufLen - c.cursor
  · rw [fillBuffer_eq_big cfg c hbig]
    refine ⟨rfl, ⟨icore, icur, ibl, icap, irem, inf, ies, iel⟩, rfl, rfl,
      Or.inl ⟨hbig, rfl⟩, Or.inl ?_⟩
    rw [window_length c ibl]
    exact hbig
  · cases heof : c.eof with
    | true =>
      rw [fillBuffer_eq_eof cfg c hbig heof]
      have hscr : c.script = [] := ies heof
      have hwin : window c = rem := by
        rw [hscr] at irem
        simpa [scriptBytes] using irem
      have htake := compact_take c ibl
      have hlen := compact_length c ibl
      have hw1 : window { c with
          backing := (c.backing.take c.bufLen).drop c.cursor ++
            c.backing.drop (c.bufLen - c.cursor),
          bufLen := c.bufLen - c.cursor, cursor := 0 } = window c := by
        simp only [window, bufOf, List.drop_zero]
        exact htake
      refine ⟨rfl, ⟨icore, by simp, ?_, ?_, ?_, by simpa using inf, ?_, ?_⟩,
        rfl, rfl, Or.inr rfl, Or.inr ⟨heof, ?_, by simpa using hscr⟩⟩
      · simp [hlen]
        omega
      · simpa [hlen] using icap
      · show window _ ++ scriptBytes c.script = rem
        rw [hw1]
        exact irem
      · intro _
        simpa using hscr
      · intro h
        simp [heof] at h
      · rw [hw1, hwin]
    | false =>
      rw [fillBuffer_eq_read cfg c hbig heof]
      simp only []
      have hbleq : c.bufLen = c.backing.length := iel heof
      obtain ⟨ib, inf', iio, ieof, ilen⟩ :=
        readFull_spec c.script (c.bufLen - (c.bufLen - c.cursor)) inf
      have htake := compact_take c ibl
      have hlen := compact_length c ibl
      cases hst : (readFull c.script (c.bufLen - (c.bufLen - c.cursor))).2.1 with
      | ioErr e => exact absurd hst (iio e)
      | full =>
        simp only []
        have hrlen := readFull_full_length c.script
          (c.bufLen - (c.bufLen - c.cursor)) hst
        have hnr : c.bufLen - c.cursor +
            (readFull c.script (c.bufLen - (c.bufLen - c.cursor))).1.length =
            c.bufLen := by
          rw [hrlen]
          omega
        have hdrop : ((c.backing.take c.bufLen).drop c.cursor ++
            c.backing.drop (c.bufLen - c.cursor)).drop
              (c.bufLen - c.cursor +
                (readFull c.script (c.bufLen - (c.bufLen - c.cursor))).1.length) =
            [] := by
          apply List.drop_eq_nil_of_le
          rw [hlen, hnr, hbleq]
        have hb2 : (((c.backing.take c.bufLen).drop c.cursor ++
            c.backing.drop (c.bufLen - c.cursor)).take (c.bufLen - c.cursor) ++
            (readFull c.script (c.bufLen - (c.bufLen - c.cursor))).1 ++
            ((c.backing.take c.bufLen).drop c.cursor ++
              c.backing.drop (c.bufLen - c.cursor)).drop
                (c.bufLen - c.cursor +
                  (readFull c.script (c.bufLen - (c.bufLen - c.cursor))).1.length)) =
            window c ++
              (readFull c.script (c.bufLen - (c.bufLen - c.cursor))).1 := by
          rw [htake, hdrop, List.append_nil]
        have hb2len : (window c ++
            (readFull c.script (c.bufLen - (c.bufLen - c.cursor))).1).length =
            c.backing.length := by
          simp [window_length c ibl, hrlen]
          omega
        have hwin : window { c with
            backing := window c ++
              (readFull c.script (c.bufLen - (c.bufLen - c.cursor))).1,
            cursor := 0,
            script := (readFull c.script (c.bufLen - (c.bufLen - c.cursor))).2.2 } =
            window c ++
              (readFull c.script (c.bufLen - (c.bufLen - c.cursor))).1 := by
          show ((window c ++
            (readFull c.script (c.bufLen - (c.bufLen - c.cursor))).1).take
              c.bufLen).drop 0 =
            window c ++ (readFull c.script (c.bufLen - (c.bufLen - c.cursor))).1
          rw [List.drop_zero]
          apply List.take_of_length_le
          rw [hb2len]
          omega
        rw [hb2]
        refine ⟨trivial, ⟨icore, Nat.zero_le _, ?_, ?_, ?_, inf', ?_, ?_⟩,
          trivial, trivial, Or.inr trivial, Or.inl ?_⟩
        · simp only []
          rw [hb2len]
          omega
        · simp only []
          rw [hb2len]
          exact icap
        · simp only []
          rw [hwin, List.append_assoc, ib]
          exact irem
        · intro h
          simp [heof] at h
        · intro _
          simp only []
          rw [hb2len]
          omega
        · rw [hwin, hb2len]
          exact icap
      | eofHit =>
        simp only []
        obtain ⟨hscr', hbytes⟩ := ieof hst
        have hrle : (readFull c.script (c.bufLen - (c.bufLen - c.cursor))).1.length ≤
            c.bufLen - (c.bufLen - c.cursor) := ilen
        have hnr : c.bufLen - c.cursor +
            (readFull c.script (c.bufLen - (c.bufLen - c.cursor))).1.length ≤
            c.backing.length := by omega
        have hb2pre : (((c.backing.take c.bufLen).drop c.cursor ++
            c.backing.drop (c.bufLen - c.cursor)).take (c.bufLen - c.cursor) ++
            (readFull c.script (c.bufLen - (c.bufLen - c.cursor))).1 ++
            ((c.backing.take c.bufLen).drop c.cursor ++
              c.backing.drop (c.bufLen - c.cursor)).drop
                (c.bufLen - c.cursor +
                  (readFull c.script (c.bufLen - (c.bufLen - c.cursor))).1.length)) =
            (window c ++
              (readFull c.script (c.bufLen - (c.bufLen - c.cursor))).1) ++
            ((c.backing.take c.bufLen).drop c.cursor ++
              c.backing.drop (c.bufLen - c.cursor)).drop
                (c.bufLen - c.cursor +
                  (readFull c.script (c.bufLen - (c.bufLen - c.cursor))).1.length) := by
          rw [htake]
        have hb2len : ((window c ++
            (readFull c.script (c.bufLen - (c.bufLen - c.cursor))).1) ++
            ((c.backing.take c.bufLen).drop c.cursor ++
              c.backing.drop (c.bufLen - c.cursor)).drop
                (c.bufLen - c.cursor +
                  (readFull c.script (c.bufLen - (c.bufLen - c.cursor))).1.length)).length =
            c.backing.length := by
          simp [window_length c ibl, hlen]
          omega
        have hwintake : ((window c ++
            (readFull c.script (c.bufLen - (c.bufLen - c.cursor))).1) ++
            ((c.backing.take c.bufLen).drop c.cursor ++
              c.backing.drop (c.bufLen - c.cursor)).drop
                (c.bufLen - c.cursor +
                  (readFull c.script (c.bufLen - (c.bufLen - c.cursor))).1.length)).take
              (c.bufLen - c.cursor +
                (readFull c.script (c.bufLen - (c.bufLen - c.cursor))).1.length) =
            window c ++
              (readFull c.script (c.bufLen - (c.bufLen - c.cursor))).1 := by
          apply List.take_left'
          simp [window_length c ibl]
        rw [hb2pre]
        have hwin : window { c with
            backing := (window c ++
              (readFull c.script (c.bufLen - (c.bufLen - c.cursor))).1) ++
              ((c.backing.take c.bufLen).drop c.cursor ++
                c.backing.drop (c.bufLen - c.cursor)).drop
                  (c.bufLen - c.cursor +
                    (readFull c.script (c.bufLen - (c.bufLen - c.cursor))).1.length),
            bufLen := c.bufLen - c.cursor +
              (readFull c.script (c.bufLen - (c.bufLen - c.cursor))).1.length,
            cursor := 0,
            script := (readFull c.script (c.bufLen - (c.bufLen - c.cursor))).2.2,
            eof := true } =
            window c ++
              (readFull c.script (c.bufLen - (c.bufLen - c.cursor))).1 := by
          simp only [window, bufOf, List.drop_zero]
          exact hwintake
        have hremw : window c ++
            (readFull c.script (c.bufLen - (c.bufLen - c.cursor))).1 = rem := by
          rw [hbytes]
          exact irem
        refine ⟨trivial, ⟨icore, Nat.zero_le _, ?_, ?_, ?_, ?_, ?_, ?_⟩,
          trivial, trivial, Or.inr trivial, Or.inr ⟨trivial, ?_, ?_⟩⟩
        · simp only []
          rw [hb2len]
          exact hnr
        · simp only []
          rw [hb2len]
          exact icap
        · simp only []
          rw [hwin, hscr']
          simpa [scriptBytes] using hremw
        · show noFail (readFull c.script (c.bufLen - (c.bufLen - c.cursor))).2.2 = true
          rw [hscr']
          rfl
        · intro _
          exact hscr'
        · intro h
          simp at h
        · rw [hwin]
          exact hremw
        · exact hscr'

theorem next_eos (cfg : CoreCfg) (hv : ValidCore cfg) (c : ChunkerState)
    (inv : ChunkerInv cfg c []) :
    (next cfg c).1 = Except.error NextErr.eofSig := by
  obtain ⟨h1, hinv, _, _, hcur, hwin⟩ := fillBuffer_ok cfg c [] inv
  have hmax : 0 < cfg.maxSize := by
    obtain ⟨a, b, d⟩ := hv
    omega
  have hwempty : window (fillBuffer cfg c).2 = [] :=
    (List.append_eq_nil.mp hinv.remaining).1
  have hbl0 : (fillBuffer cfg c).2.bufLen = 0 := by
    rcases hcur with ⟨hbig, _⟩ | h0
    · exfalso
      have hwc : window c = [] := (List.append_eq_nil.mp inv.remaining).1
      have := window_length c inv.buflen_le
      rw [hwc] at this
      simp at this
      omega
    · have := window_length (fillBuffer cfg c).2 hinv.buflen_le
      rw [hwempty] at this
      simp at this
      omega
  have hfbp : fillBuffer cfg c = (none, (fillBuffer cfg c).2) := by
    rw [← h1]
  simp only [next]
  rw [hfbp]
  simp only []
  rw [if_pos hbl0]

theorem next_chunk (cfg : CoreCfg) (hv : ValidCore cfg) (c : ChunkerState)
    (rem : List Nat) (inv : ChunkerInv cfg c rem) (hne : rem ≠ []) :
    ∃ ch c2, next cfg c = (.ok ch, c2) ∧
      ch.offset = c.offset ∧ ch.data = rem.take ch.length ∧
      ch.data.length = ch.length ∧ 1 ≤ ch.length ∧
      ch.length ≤ cfg.maxSize ∧
      (ch.length < rem.length → cfg.minSize ≤ ch.length) ∧
      c2.offset = c.offset + ch.length ∧
      ChunkerInv cfg c2 (rem.drop ch.length) := by
  obtain ⟨h1, hinv, hoff, hcore, hcur, hwin⟩ := fillBuffer_ok cfg c rem inv
  have hmax : 0 < cfg.maxSize := by
    obtain ⟨a, b, d⟩ := hv
    omega
  have havail : window (fillBuffer cfg c).2 ≠ [] := by
    rcases hwin with hbig | ⟨heof, hw, hscr⟩
    · intro h
      rw [h] at hbig
      simp at hbig
      omega
    · rw [hw]
      exact hne
  have hwl := window_length (fillBuffer cfg c).2 hinv.buflen_le
  have hbl : ¬ (fillBuffer cfg c).2.bufLen = 0 := by
    intro h0
    apply havail
    apply List.eq_nil_of_length_eq_zero
    omega
  have hfbp : fillBuffer cfg c = (none, (fillBuffer cfg c).2) := by
    rw [← h1]
  obtain ⟨hT, hF⟩ := findBoundary_spec cfg hv ⟨0, 0⟩
    (window (fillBuffer cfg c).2) (by simpa using hmax) havail
  have hrem := hinv.remaining
  cases hfound : (findBoundary cfg ⟨0, 0⟩ (window (fillBuffer cfg c).2)).1.found
    with
  | true =>
    obtain ⟨ha1, ha2, ha3, ha4, _⟩ := hT hfound
    simp only [CoreState.position] at ha1 ha2
    have hnext : next cfg c =
        (.ok ⟨(fillBuffer cfg c).2.offset,
          (findBoundary cfg ⟨0, 0⟩ (window (fillBuffer cfg c).2)).1.boundary,
          (findBoundary cfg ⟨0, 0⟩ (window (fillBuffer cfg c).2)).1.hash,
          (window (fillBuffer cfg c).2).take
            (findBoundary cfg ⟨0, 0⟩ (window (fillBuffer cfg c).2)).1.boundary⟩,
          { (fillBuffer cfg c).2 with
            core := ⟨0, 0⟩,
            cursor := (fillBuffer cfg c).2.cursor +
              (findBoundary cfg ⟨0, 0⟩ (window (fillBuffer cfg c).2)).1.boundary,
            offset := (fillBuffer cfg c).2.offset +
              (findBoundary cfg ⟨0, 0⟩ (window (fillBuffer cfg c).2)).1.boundary }) := by
      simp only [next]
      rw [hfbp]
      simp only []
      rw [if_neg hbl, hinv.core_init, hfound]
      simp only [if_true]
    have hw2 : window { (fillBuffer cfg c).2 with
        core := (⟨0, 0⟩ : CoreState),
        cursor := (fillBuffer cfg c).2.cursor +
          (findBoundary cfg ⟨0, 0⟩ (window (fillBuffer cfg c).2)).1.boundary,
        offset := (fillBuffer cfg c).2.offset +
          (findBoundary cfg ⟨0, 0⟩ (window (fillBuffer cfg c).2)).1.boundary } =
        (window (fillBuffer cfg c).2).drop
          (findBoundary cfg ⟨0, 0⟩ (window (fillBuffer cfg c).2)).1.boundary := by
      show (bufOf (fillBuffer cfg c).2).drop
          ((fillBuffer cfg c).2.cursor +
            (findBoundary cfg ⟨0, 0⟩ (window (fillBuffer cfg c).2)).1.boundary) =
        ((bufOf (fillBuffer cfg c).2).drop (fillBuffer cfg c).2.cursor).drop
          (findBoundary cfg ⟨0, 0⟩ (window (fillBuffer cfg c).2)).1.boundary
      rw [List.drop_drop]
    refine ⟨_, _, hnext, hoff, ?_, ?_, ?_, ?_, ?_, ?_, ?_⟩
    · show (window (fillBuffer cfg c).2).take
          (findBoundary cfg ⟨0, 0⟩ (window (fillBuffer cfg c).2)).1.boundary =
        rem.take
          (findBoundary cfg ⟨0, 0⟩ (window (fillBuffer cfg c).2)).1.boundary
      rw [← hrem]
      rw [List.take_append_of_le_length (by omega)]
    · show ((window (fillBuffer cfg c).2).take
          (findBoundary cfg ⟨0, 0⟩ (window (fillBuffer cfg c).2)).1.boundary).length =
        (findBoundary cfg ⟨0, 0⟩ (window (fillBuffer cfg c).2)).1.boundary
      rw [List.length_take]
      omega
    · show 1 ≤ (findBoundary cfg ⟨0, 0⟩ (window (fillBuffer cfg c).2)).1.boundary
      omega
    · exact ha3
    · intro _
      show cfg.minSize ≤
        (findBoundary cfg ⟨0, 0⟩ (window (fillBuffer cfg c).2)).1.boundary
      omega
    · show (fillBuffer cfg c).2.offset +
          (findBoundary cfg ⟨0, 0⟩ (window (fillBuffer cfg c).2)).1.boundary =
        c.offset +
          (findBoundary cfg ⟨0, 0⟩ (window (fillBuffer cfg c).2)).1.boundary
      rw [hoff]
    · refine ⟨rfl, ?_, hinv.buflen_le, hinv.cap_ge, ?_, hinv.nofail, ?_, ?_⟩
      · show (fillBuffer cfg c).2.cursor +
            (findBoundary cfg ⟨0, 0⟩ (window (fillBuffer cfg c).2)).1.boundary ≤
          (fillBuffer cfg c).2.bufLen
        omega
      · show window _ ++ scriptBytes (fillBuffer cfg c).2.script =
          rem.drop (findBoundary cfg ⟨0, 0⟩ (window (fillBuffer cfg c).2)).1.boundary
        rw [hw2, ← List.drop_append_of_le_length (by omega), hrem]
      · intro h
        exact hinv.eof_script h
      · intro h
        exact hinv.eof_len h
  | false =>
    obtain ⟨hb1, hb2, _⟩ := hF hfound
    simp only [CoreState.position] at hb1 hb2
    rcases hwin with hbig | ⟨heof, hw, hscr⟩
    · omega
    · have hnext : next cfg c =
          (.ok ⟨(fillBuffer cfg c).2.offset,
            (window (fillBuffer cfg c).2).length,
            (findBoundary cfg ⟨0, 0⟩ (window (fillBuffer cfg c).2)).1.hash,
            (window (fillBuffer cfg c).2).take
              (window (fillBuffer cfg c).2).length⟩,
            { (fillBuffer cfg c).2 with
              core := ⟨0, 0⟩,
              cursor := (fillBuffer cfg c).2.cursor +
                (window (fillBuffer cfg c).2).length,
              offset := (fillBuffer cfg c).2.offset +
                (window (fillBuffer cfg c).2).length }) := by
        simp only [next]
        rw [hfbp]
        simp only []
        rw [if_neg hbl, hinv.core_init, hfound]
        rw [if_neg (show ¬ (false = true) by simp)]
      have hr0 : rem.length ≠ 0 := by
        intro h
        exact hne (List.eq_nil_of_length_eq_zero h)
      have hwlen : (window (fillBuffer cfg c).2).length = rem.length := by
        rw [hw]
      have hw2 : window { (fillBuffer cfg c).2 with
          core := (⟨0, 0⟩ : CoreState),
          cursor := (fillBuffer cfg c).2.cursor +
            (window (fillBuffer cfg c).2).length,
          offset := (fillBuffer cfg c).2.offset +
            (window (fillBuffer cfg c).2).length } =
          (window (fillBuffer cfg c).2).drop
            (window (fillBuffer cfg c).2).length := by
        show (bufOf (fillBuffer cfg c).2).drop
            ((fillBuffer cfg c).2.cursor +
              (window (fillBuffer cfg c).2).length) =
          ((bufOf (fillBuffer cfg c).2).drop
            (fillBuffer cfg c).2.cursor).drop
              (window (fillBuffer cfg c).2).length
        rw [List.drop_drop]
      refine ⟨_, _, hnext, hoff, ?_, ?_, ?_, ?_, ?_, ?_, ?_⟩
      · show (window (fillBuffer cfg c).2).take
            (window (fillBuffer cfg c).2).length =
          rem.take (window (fillBuffer cfg c).2).length
        rw [hw]
      · show ((window (fillBuffer cfg c).2).take
            (window (fillBuffer cfg c).2).length).length =
          (window (fillBuffer cfg c).2).length
        rw [List.length_take]
        omega
      · show 1 ≤ (window (fillBuffer cfg c).2).length
        omega
      · show (window (fillBuffer cfg c).2).length ≤ cfg.maxSize
        omega
      · intro h
        exfalso
        revert h
        show ¬ ((window (fillBuffer cfg c).2).length < rem.length)
        omega
      · show (fillBuffer cfg c).2.offset +
            (window (fillBuffer cfg c).2).length =
          c.offset + (window (fillBuffer cfg c).2).length
        rw [hoff]
      · refine ⟨rfl, ?_, hinv.buflen_le, hinv.cap_ge, ?_, hinv.nofail, ?_, ?_⟩
        · show (fillBuffer cfg c).2.cursor +
              (window (fillBuffer cfg c).2).length ≤
            (fillBuffer cfg c).2.bufLen
          omega
        · show window _ ++ scriptBytes (fillBuffer cfg c).2.script =
            rem.drop (window (fillBuffer cfg c).2).length
          rw [hw2, List.drop_length, hscr, hwlen, List.drop_length]
          rfl
        · intro h
          exact hinv.eof_script h
        · intro h
          exact hinv.eof_len h

theorem runChunks_succ_eos (cfg : CoreCfg) (fuel : Nat) (c : ChunkerState)
    (h : (next cfg c).1 = .error .eofSig) :
    runChunks cfg (fuel + 1) c = ([], .eos, (next cfg c).2) := by
  rw [runChunks.eq_2]
  rcases hnx : next cfg c with ⟨r, c1⟩
  rw [hnx] at h
  simp only [] at h
  subst h
  rfl

theorem runChunks_succ_chunk (cfg : CoreCfg) (fuel : Nat) (c : ChunkerState)
    (ch : GoChunk) (c2 : ChunkerState) (h : next cfg c = (.ok ch, c2)) :
    runChunks cfg (fuel + 1) c =
      (ch :: (runChunks cfg fuel c2).1, (runChunks cfg fuel c2).2) := by
  rw [runChunks.eq_2, h]

/-- Draining a chunker whose state satisfies the invariant for
remaining bytes `rem` yields, with enough fuel: termination by `io.EOF`,
payloads concatenating to exactly `rem`, contiguous offsets from the
current absolute offset, every chunk within `(0, maxSize]`, and every
chunk except the last at least `minSize` long. -/
theorem runChunks_spec (cfg : CoreCfg) (hv : ValidCore cfg) :
    ∀ (fuel : Nat) (rem : List Nat) (c : ChunkerState),
      ChunkerInv cfg c rem → rem.length < fuel →
      (runChunks cfg fuel c).2.1 = .eos ∧
      chunksData (runChunks cfg fuel c).1 = rem ∧
      offsetsChain c.offset (runChunks cfg fuel c).1 = true ∧
      nonLastGE cfg.minSize (runChunks cfg fuel c).1 = true ∧
      ∀ ch ∈ (runChunks cfg fuel c).1,
        1 ≤ ch.length ∧ ch.length ≤ cfg.maxSize ∧
        ch.data.length = ch.length := by
  intro fuel
  induction fuel with
  | zero =>
    intro rem c _ h
    omega
  | succ fuel ih =>
    intro rem c inv hlt
    by_cases hrem : rem = []
    · subst hrem
      rw [runChunks_succ_eos cfg fuel c (next_eos cfg hv c inv)]
      refine ⟨rfl, by simp [chunksData], rfl, rfl, ?_⟩
      intro ch hch
      simp at hch
    · obtain ⟨ch, c2, hn, hchoff, hdata, hdlen, h1len, hlmax, hmin, hc2off,
        inv2⟩ := next_chunk cfg hv c rem inv hrem
      rw [runChunks_succ_chunk cfg fuel c ch c2 hn]
      have hlt2 : (rem.drop ch.length).length < fuel := by
        have hrl : rem.length ≠ 0 := fun h0 =>
          hrem (List.eq_nil_of_length_eq_zero h0)
        rw [List.length_drop]
        omega
      obtain ⟨it, idata, ioff, inl, ilen⟩ := ih (rem.drop ch.length) c2 inv2 hlt2
      refine ⟨it, ?_, ?_, ?_, ?_⟩
      · show chunksData (ch :: (runChunks cfg fuel c2).1) = rem
        simp only [chunksData, List.map_cons, List.flatten_cons]
        show ch.data ++ chunksData (runChunks cfg fuel c2).1 = rem
        rw [idata, hdata, List.take_append_drop]
      · show offsetsChain c.offset (ch :: (runChunks cfg fuel c2).1) = true
        simp only [offsetsChain, Bool.and_eq_true, decide_eq_true_eq]
        exact ⟨hchoff, by rw [← hc2off]; exact ioff⟩
      · show nonLastGE cfg.minSize (ch :: (runChunks cfg fuel c2).1) = true
        cases htail : (runChunks cfg fuel c2).1 with
        | nil => rfl
        | cons ch2 t =>
          have hne2 : rem.drop ch.length ≠ [] := by
            intro h0
            rw [htail] at idata
            rw [h0] at idata
            have hch2 := ilen ch2 (by rw [htail]; exact List.mem_cons_self _ _)
            have : ch2.data ≠ [] := by
              intro hd
              have := hch2.2.2
              rw [hd] at this
              simp at this
              omega
            apply this
            have : ch2.data ++ chunksData t = [] := by
              simpa [chunksData] using idata
            exact (List.append_eq_nil.mp this).1
          have hlen_lt : ch.length < rem.length := by
            have : (rem.drop ch.length).length ≠ 0 := by
              intro h0
              exact hne2 (List.eq_nil_of_length_eq_zero h0)
            rw [List.length_drop] at this
            omega
          show nonLastGE cfg.minSize (ch :: ch2 :: t) = true
          simp only [nonLastGE, Bool.and_eq_true, decide_eq_true_eq]
          refine ⟨hmin hlen_lt, ?_⟩
          rw [← htail]
          exact inl
      · intro ch' hch'
        rcases List.mem_cons.mp hch' with heq | hmem
        · subst heq
          exact ⟨h1len, hlmax, hdlen⟩
        · exact ilen ch' hmem

theorem readFull_length_le (script : List RStep) :
    ∀ req, (readFull script req).1.length ≤ req := by
  induction script with
  | nil =>
    intro req
    by_cases h0 : req = 0
    · subst h0
      simp [readFull_zero]
    · rw [readFull_nil req h0]
      simp
  | cons step rest ih =>
    intro req
    by_cases h0 : req = 0
    · subst h0
      simp [readFull_zero]
    · cases step with
      | give bs =>
        by_cases hle : req ≤ bs.length
        · rw [readFull_give_le bs rest req h0 hle]
          simp [List.length_take]
        · push_neg at hle
          rw [readFull_give_gt bs rest req h0 hle]
          have := ih (req - bs.length)
          simp
          omega
      | fail e =>
        rw [readFull_fail e rest req h0]
        simp

theorem backing2_length (c : ChunkerState) (w : List Nat)
    (h2 : c.bufLen ≤ c.backing.length)
    (hw : c.bufLen - c.cursor + w.length ≤ c.backing.length) :
    (((c.backing.take c.bufLen).drop c.cursor ++
        c.backing.drop (c.bufLen - c.cursor)).take (c.bufLen - c.cursor) ++
      w ++
      ((c.backing.take c.bufLen).drop c.cursor ++
        c.backing.drop (c.bufLen - c.cursor)).drop
          (c.bufLen - c.cursor + w.length)).length = c.backing.length := by
  simp [List.length_take, List.length_drop]
  omega

theorem backing2_take (c : ChunkerState) (w : List Nat)
    (h2 : c.bufLen ≤ c.backing.length) :
    (((c.backing.take c.bufLen).drop c.cursor ++
        c.backing.drop (c.bufLen - c.cursor)).take (c.bufLen - c.cursor) ++
      w ++
      ((c.backing.take c.bufLen).drop c.cursor ++
        c.backing.drop (c.bufLen - c.cursor)).drop
          (c.bufLen - c.cursor + w.length)).take
      (c.bufLen - c.cursor + w.length) = window c ++ w := by
  rw [compact_take c h2, List.append_assoc]
  rw [← List.append_assoc]
  apply List.take_left'
  simp [window_length c h2]

/-- Two chunker states that agree on everything a run can observe: all
control fields, the source, the capacity, and the unconsumed window.
They may differ in buffer bytes outside the window (for example, a
freshly zeroed buffer versus one holding stale bytes of an earlier
stream). -/
structure SameView (a b : ChunkerState) : Prop where
  core_eq : a.core = b.core
  script_eq : a.script = b.script
  buflen_eq : a.bufLen = b.bufLen
  cursor_eq : a.cursor = b.cursor
  offset_eq : a.offset = b.offset
  eof_eq : a.eof = b.eof
  backlen_eq : a.backing.length = b.backing.length
  buflen_le_a : a.bufLen ≤ a.backing.length
  buflen_le_b : b.bufLen ≤ b.backing.length
  window_eq : window a = window b

theorem fill_sameView (cfg : CoreCfg) (a b : ChunkerState)
    (sv : SameView a b) :
    (fillBuffer cfg a).1 = (fillBuffer cfg b).1 ∧
    ((fillBuffer cfg a).1 = none →
      SameView (fillBuffer cfg a).2 (fillBuffer cfg b).2) := by
  obtain ⟨hcore, hscript, hbl, hcur, hoff, heof, hbk, hla, hlb, hwin⟩ := sv
  have hn : a.bufLen - a.cursor = b.bufLen - b.cursor := by
    rw [hbl, hcur]
  by_cases hbig : cfg.maxSize ≤ a.bufLen - a.cursor
  · rw [fillBuffer_eq_big cfg a hbig,
      fillBuffer_eq_big cfg b (by rw [← hn]; exact hbig)]
    exact ⟨rfl, fun _ =>
      ⟨hcore, hscript, hbl, hcur, hoff, heof, hbk, hla, hlb, hwin⟩⟩
  · have hbig2 : ¬ cfg.maxSize ≤ b.bufLen - b.cursor := by
      rw [← hn]
      exact hbig
    cases heofv : a.eof with
    | true =>
      have heofb : b.eof = true := by
        rw [← heof]
        exact heofv
      rw [fillBuffer_eq_eof cfg a hbig heofv,
        fillBuffer_eq_eof cfg b hbig2 heofb]
      refine ⟨rfl, fun _ => ⟨hcore, hscript, hn, rfl, hoff, heof, ?_, ?_, ?_, ?_⟩⟩
      · show ((a.backing.take a.bufLen).drop a.cursor ++
            a.backing.drop (a.bufLen - a.cursor)).length =
          ((b.backing.take b.bufLen).drop b.cursor ++
            b.backing.drop (b.bufLen - b.cursor)).length
        rw [compact_length a hla, compact_length b hlb]
        exact hbk
      · show a.bufLen - a.cursor ≤
          ((a.backing.take a.bufLen).drop a.cursor ++
            a.backing.drop (a.bufLen - a.cursor)).length
        rw [compact_length a hla]
        omega
      · show b.bufLen - b.cursor ≤
          ((b.backing.take b.bufLen).drop b.cursor ++
            b.backing.drop (b.bufLen - b.cursor)).length
        rw [compact_length b hlb]
        omega
      · show (((a.backing.take a.bufLen).drop a.cursor ++
            a.backing.drop (a.bufLen - a.cursor)).take
              (a.bufLen - a.cursor)).drop 0 =
          (((b.backing.take b.bufLen).drop b.cursor ++
            b.backing.drop (b.bufLen - b.cursor)).take
              (b.bufLen - b.cursor)).drop 0
        rw [List.drop_zero, List.drop_zero, compact_take a hla,
          compact_take b hlb]
        exact hwin
    | false =>
      have heofb : b.eof = false := by
        rw [← heof]
        exact heofv
      rw [fillBuffer_eq_read cfg a hbig heofv,
        fillBuffer_eq_read cfg b hbig2 heofb]
      simp only []
      have hreq : a.bufLen - (a.bufLen - a.cursor) =
          b.bufLen - (b.bufLen - b.cursor) := by
        omega
      have hrf : readFull b.script (b.bufLen - (b.bufLen - b.cursor)) =
          readFull a.script (a.bufLen - (a.bufLen - a.cursor)) := by
        rw [hscript, hreq]
      rw [hrf]
      have hwle := readFull_length_le a.script
        (a.bufLen - (a.bufLen - a.cursor))
      cases hst : (readFull a.script (a.bufLen - (a.bufLen - a.cursor))).2.1
        with
      | ioErr e =>
        refine ⟨rfl, fun h => ?_⟩
        simp at h
      | full =>
        have hrlen := readFull_full_length a.script
          (a.bufLen - (a.bufLen - a.cursor)) hst
        have hwa : a.bufLen - a.cursor +
            (readFull a.script (a.bufLen - (a.bufLen - a.cursor))).1.length =
            a.bufLen := by
          omega
        have hwb : b.bufLen - b.cursor +
            (readFull a.script (a.bufLen - (a.bufLen - a.cursor))).1.length =
            b.bufLen := by
          omega
        have hlena := backing2_length a
          (readFull a.script (a.bufLen - (a.bufLen - a.cursor))).1 hla
          (by omega)
        have hlenb := backing2_length b
          (readFull a.script (a.bufLen - (a.bufLen - a.cursor))).1 hlb
          (by omega)
        have hA := backing2_take a
          (readFull a.script (a.bufLen - (a.bufLen - a.cursor))).1 hla
        have hB := backing2_take b
          (readFull a.script (a.bufLen - (a.bufLen - a.cursor))).1 hlb
        nth_rewrite 1 [hwa] at hA
        nth_rewrite 1 [hwb] at hB
        refine ⟨rfl, fun _ =>
          ⟨hcore, rfl, hbl, rfl, hoff, heof, ?_, ?_, ?_, ?_⟩⟩
        · show (_ ++ _ ++ _ : List Nat).length = (_ ++ _ ++ _ : List Nat).length
          rw [hlena, hlenb]
          exact hbk
        · show a.bufLen ≤ (_ ++ _ ++ _ : List Nat).length
          rw [hlena]
          omega
        · show b.bufLen ≤ (_ ++ _ ++ _ : List Nat).length
          rw [hlenb]
          omega
        · show (List.take a.bufLen _).drop 0 = (List.take b.bufLen _).drop 0
          rw [List.drop_zero, List.drop_zero, hA, hB, hwin]
      | eofHit =>
        have hlena := backing2_length a
          (readFull a.script (a.bufLen - (a.bufLen - a.cursor))).1 hla
          (by omega)
        have hlenb := backing2_length b
          (readFull a.script (a.bufLen - (a.bufLen - a.cursor))).1 hlb
          (by omega)
        have hA := backing2_take a
          (readFull a.script (a.bufLen - (a.bufLen - a.cursor))).1 hla
        have hB := backing2_take b
          (readFull a.script (a.bufLen - (a.bufLen - a.cursor))).1 hlb
        refine ⟨rfl, fun _ =>
          ⟨hcore, rfl, ?_, rfl, hoff, rfl, ?_, ?_, ?_, ?_⟩⟩
        · show a.bufLen - a.cursor +
              (readFull a.script (a.bufLen - (a.bufLen - a.cursor))).1.length =
            b.bufLen - b.cursor +
              (readFull a.script (a.bufLen - (a.bufLen - a.cursor))).1.length
          omega
        · show (_ ++ _ ++ _ : List Nat).length = (_ ++ _ ++ _ : List Nat).length
          rw [hlena, hlenb]
          exact hbk
        · show a.bufLen - a.cursor +
              (readFull a.script (a.bufLen - (a.bufLen - a.cursor))).1.length ≤
            (_ ++ _ ++ _ : List Nat).length
          rw [hlena]
          omega
        · show b.bufLen - b.cursor +
              (readFull a.script (a.bufLen - (a.bufLen - a.cursor))).1.length ≤
            (_ ++ _ ++ _ : List Nat).length
          rw [hlenb]
          omega
        · show (List.take (a.bufLen - a.cursor + _) _).drop 0 =
            (List.take (b.bufLen - b.cursor + _) _).drop 0
          rw [List.drop_zero, List.drop_zero, hA, hB, hwin]

theorem drop_window (c : ChunkerState) (k : Nat) :
    window { c with
      core := (⟨0, 0⟩ : CoreState),
      cursor := c.cursor + k,
      offset := c.offset + k } = (window c).drop k := by
  show (bufOf c).drop (c.cursor + k) = ((bufOf c).drop c.cursor).drop k
  rw [List.drop_drop]

theorem next_sameView (cfg : CoreCfg) (a b : ChunkerState)
    (sv : SameView a b) :
    (next cfg a).1 = (next cfg b).1 ∧
    (∀ ch c2, next cfg a = (.ok ch, c2) →
      SameView (next cfg a).2 (next cfg b).2) := by
  obtain ⟨hfst, hsv⟩ := fill_sameView cfg a b sv
  cases hfa : (fillBuffer cfg a).1 with
  | some e =>
    have hfb : (fillBuffer cfg b).1 = some e := by
      rw [← hfst]
      exact hfa
    have hpa : fillBuffer cfg a = (some e, (fillBuffer cfg a).2) := by
      rw [← hfa]
    have hpb : fillBuffer cfg b = (some e, (fillBuffer cfg b).2) := by
      rw [← hfb]
    constructor
    · simp only [next]
      rw [hpa, hpb]
    · intro ch c2 h
      exfalso
      simp only [next] at h
      rw [hpa] at h
      simp at h
  | none =>
    have hfb : (fillBuffer cfg b).1 = none := by
      rw [← hfst]
      exact hfa
    obtain ⟨hcore2, hscript2, hbl2, hcur2, hoff2, heof2, hbk2, hla2, hlb2,
      hwin2⟩ := hsv hfa
    have hpa : fillBuffer cfg a = (none, (fillBuffer cfg a).2) := by
      rw [← hfa]
    have hpb : fillBuffer cfg b = (none, (fillBuffer cfg b).2) := by
      rw [← hfb]
    by_cases hz : (fillBuffer cfg a).2.bufLen = 0
    · have hzb : (fillBuffer cfg b).2.bufLen = 0 := by
        omega
      constructor
      · simp only [next]
        rw [hpa, hpb]
        simp only []
        rw [if_pos hz, if_pos hzb]
      · intro ch c2 h
        exfalso
        simp only [next] at h
        rw [hpa] at h
        simp only [] at h
        rw [if_pos hz] at h
        simp at h
    · have hzb : ¬ (fillBuffer cfg b).2.bufLen = 0 := by
        omega
      have hbd : (if (findBoundary cfg (fillBuffer cfg a).2.core
            (window (fillBuffer cfg a).2)).1.found then
          (findBoundary cfg (fillBuffer cfg a).2.core
            (window (fillBuffer cfg a).2)).1.boundary
        else (window (fillBuffer cfg a).2).length) =
          (if (findBoundary cfg (fillBuffer cfg b).2.core
            (window (fillBuffer cfg b).2)).1.found then
          (findBoundary cfg (fillBuffer cfg b).2.core
            (window (fillBuffer cfg b).2)).1.boundary
        else (window (fillBuffer cfg b).2).length) := by
        rw [hcore2, hwin2]
      have hna : next cfg a =
          (.ok ⟨(fillBuffer cfg a).2.offset,
            (if (findBoundary cfg (fillBuffer cfg a).2.core
                (window (fillBuffer cfg a).2)).1.found then
              (findBoundary cfg (fillBuffer cfg a).2.core
                (window (fillBuffer cfg a).2)).1.boundary
            else (window (fillBuffer cfg a).2).length),
            (findBoundary cfg (fillBuffer cfg a).2.core
              (window (fillBuffer cfg a).2)).1.hash,
            (window (fillBuffer cfg a).2).take
              (if (findBoundary cfg (fillBuffer cfg a).2.core
                  (window (fillBuffer cfg a).2)).1.found then
                (findBoundary cfg (fillBuffer cfg a).2.core
                  (window (fillBuffer cfg a).2)).1.boundary
              else (window (fillBuffer cfg a).2).length)⟩,
            { (fillBuffer cfg a).2 with
              core := ⟨0, 0⟩,
              cursor := (fillBuffer cfg a).2.cursor +
                (if (findBoundary cfg (fillBuffer cfg a).2.core
                    (window (fillBuffer cfg a).2)).1.found then
                  (findBoundary cfg (fillBuffer cfg a).2.core
                    (window (fillBuffer cfg a).2)).1.boundary
                else (window (fillBuffer cfg a).2).length),
              offset := (fillBuffer cfg a).2.offset +
                (if (findBoundary cfg (fillBuffer cfg a).2.core
                    (window (fillBuffer cfg a).2)).1.found then
                  (findBoundary cfg (fillBuffer cfg a).2.core
                    (window (fillBuffer cfg a).2)).1.boundary
                else (window (fillBuffer cfg a).2).length) }) := by
        simp only [next]
        rw [hpa]
        simp only []
        rw [if_neg hz]
      have hnb : next cfg b =
          (.ok ⟨(fillBuffer cfg b).2.offset,
            (if (findBoundary cfg (fillBuffer cfg b).2.core
                (window (fillBuffer cfg b).2)).1.found then
              (findBoundary cfg (fillBuffer cfg b).2.core
                (window (fillBuffer cfg b).2)).1.boundary
            else (window (fillBuffer cfg b).2).length),
            (findBoundary cfg (fillBuffer cfg b).2.core
              (window (fillBuffer cfg b).2)).1.hash,
            (window (fillBuffer cfg b).2).take
              (if (findBoundary cfg (fillBuffer cfg b).2.core
                  (window (fillBuffer cfg b).2)).1.found then
                (findBoundary cfg (fillBuffer cfg b).2.core
                  (window (fillBuffer cfg b).2)).1.boundary
              else (window (fillBuffer cfg b).2).length)⟩,
            { (fillBuffer cfg b).2 with
              core := ⟨0, 0⟩,
              cursor := (fillBuffer cfg b).2.cursor +
                (if (findBoundary cfg (fillBuffer cfg b).2.core
                    (window (fillBuffer cfg b).2)).1.found then
                  (findBoundary cfg (fillBuffer cfg b).2.core
                    (window (fillBuffer cfg b).2)).1.boundary
                else (window (fillBuffer cfg b).2).length),
              offset := (fillBuffer cfg b).2.offset +
                (if (findBoundary cfg (fillBuffer cfg b).2.core
                    (window (fillBuffer cfg b).2)).1.found then
                  (findBoundary cfg (fillBuffer cfg b).2.core
                    (window (fillBuffer cfg b).2)).1.boundary
                else (window (fillBuffer cfg b).2).length) }) := by
        simp only [next]
        rw [hpb]
        simp only []
        rw [if_neg hzb]
      constructor
      · rw [hna, hnb]
        simp only []
        rw [hcore2, hwin2, hoff2]
      · intro ch c2 _
        rw [hna, hnb]
        refine ⟨rfl, hscript2, ?_, ?_, ?_, heof2, hbk2, hla2, hlb2, ?_⟩
        · exact hbl2
        · show (fillBuffer cfg a).2.cursor + _ = (fillBuffer cfg b).2.cursor + _
          rw [hcur2, hbd]
        · show (fillBuffer cfg a).2.offset + _ = (fillBuffer cfg b).2.offset + _
          rw [hoff2, hbd]
        · rw [drop_window, drop_window, hbd, hwin2]

theorem runChunks_sameView (cfg : CoreCfg) :
    ∀ (fuel : Nat) (a b : ChunkerState), SameView a b →
      (runChunks cfg fuel a).1 = (runChunks cfg fuel b).1 ∧
      (runChunks cfg fuel a).2.1 = (runChunks cfg fuel b).2.1 := by
  intro fuel
  induction fuel with
  | zero =>
    intro a b _
    exact ⟨rfl, rfl⟩
  | succ fuel ih =>
    intro a b sv
    obtain ⟨hres, hsucc⟩ := next_sameView cfg a b sv
    rcases hna : next cfg a with ⟨ra, a2⟩
    rcases hnb : next cfg b with ⟨rb, b2⟩
    have hrab : ra = rb := by
      rw [hna, hnb] at hres
      exact hres
    subst hrab
    cases ra with
    | error err =>
      cases err with
      | eofSig =>
        rw [runChunks_succ_eos cfg fuel a (by rw [hna]),
          runChunks_succ_eos cfg fuel b (by rw [hnb])]
        exact ⟨rfl, rfl⟩
      | ioErr e =>
        have hea : runChunks cfg (fuel + 1) a = ([], .ioErr e, a2) := by
          rw [runChunks.eq_2, hna]
        have heb : runChunks cfg (fuel + 1) b = ([], .ioErr e, b2) := by
          rw [runChunks.eq_2, hnb]
        rw [hea, heb]
        exact ⟨rfl, rfl⟩
    | ok ch =>
      have hsv2 := hsucc ch a2 hna
      rw [hna, hnb] at hsv2
      obtain ⟨ht, hterm⟩ := ih a2 b2 hsv2
      rw [runChunks_succ_chunk cfg fuel a ch a2 hna,
        runChunks_succ_chunk cfg fuel b ch b2 hnb]
      exact ⟨by rw [ht], hterm⟩

theorem newCoreConfig_err_min (o : Opts) (h : o.minSize = some 0) :
    newCoreConfig o = .error .invalidMinSize := by
  simp [newCoreConfig, applyOpt, withMinSize, h, Bind.bind, Except.bind]

theorem newCoreConfig_err_target (o : Opts) (hm : o.minSize ≠ some 0)
    (h : o.targetSize = some 0) :
    newCoreConfig o = .error .invalidTargetSize := by
  rcases hmv : o.minSize with _ | m <;>
    simp_all [newCoreConfig, applyOpt, withMinSize, withTargetSize,
      Bind.bind, Except.bind]

theorem newCoreConfig_err_max (o : Opts) (hm : o.minSize ≠ some 0)
    (ht : o.targetSize ≠ some 0) (h : o.maxSize = some 0) :
    newCoreConfig o = .error .invalidMaxSize := by
  rcases hmv : o.minSize with _ | m <;> rcases htv : o.targetSize with _ | t <;>
    simp_all [newCoreConfig, applyOpt, withMinSize, withTargetSize,
      withMaxSize, Bind.bind, Except.bind]

theorem newCoreConfig_err_norm (o : Opts) (hm : o.minSize ≠ some 0)
    (ht : o.targetSize ≠ some 0) (hx : o.maxSize ≠ some 0)
    (v : Nat) (hnv : o.normLevel = some v) (h8 : 8 < v) :
    newCoreConfig o = .error .invalidNormLevel := by
  rcases hmv : o.minSize with _ | m <;> rcases htv : o.targetSize with _ | t <;>
    rcases hxv : o.maxSize with _ | x <;>
    simp_all [newCoreConfig, applyOpt, withMinSize, withTargetSize,
      withMaxSize, withNormalization, Bind.bind, Except.bind]
  all_goals omega

theorem newCoreConfig_err_buffer (o : Opts) (hm : o.minSize ≠ some 0)
    (ht : o.targetSize ≠ some 0) (hx : o.maxSize ≠ some 0)
    (hn : ¬ ∃ v, o.normLevel = some v ∧ 8 < v)
    (b : Int) (hbv : o.bufferSize = some b) (hb0 : b ≤ 0) :
    newCoreConfig o = .error .invalidBufferSize := by
  rcases hmv : o.minSize with _ | m <;> rcases htv : o.targetSize with _ | t <;>
    rcases hxv : o.maxSize with _ | x <;>
    rcases hnv : o.normLevel with _ | n <;>
    rcases hsv : o.seed with _ | sd <;>
    simp_all [newCoreConfig, applyOpt, withMinSize, withTargetSize,
      withMaxSize, withNormalization, withSeed, withBufferSize,
      Bind.bind, Except.bind]
  all_goals
    have h8 : ¬ 8 < n := by omega
    rw [if_neg h8]

theorem newCoreConfig_eq_validate (o : Opts)
    (hm : o.minSize ≠ some 0) (ht : o.targetSize ≠ some 0)
    (hx : o.maxSize ≠ some 0)
    (hn : ¬ ∃ v, o.normLevel = some v ∧ 8 < v)
    (hb : ¬ ∃ b, o.bufferSize = some b ∧ b ≤ 0) :
    newCoreConfig o = validate ⟨effMin o, effTarget o, effMax o, effNorm o,
      o.seed.getD defaultGoConfig.seed,
      o.bufferSize.getD defaultGoConfig.bufferSize⟩ := by
  rcases hmv : o.minSize with _ | m <;> rcases htv : o.targetSize with _ | t <;>
    rcases hxv : o.maxSize with _ | x <;>
    rcases hnv : o.normLevel with _ | n <;>
    rcases hsv : o.seed with _ | sd <;>
    rcases hbv : o.bufferSize with _ | bf <;>
    simp_all [newCoreConfig, applyOpt, withMinSize, withTargetSize,
      withMaxSize, withNormalization, withSeed, withBufferSize,
      effMin, effTarget, effMax, effNorm, defaultGoConfig,
      Bind.bind, Except.bind]
  all_goals repeat' split
  all_goals try rfl
  all_goals try omega
  all_goals split_ifs at * <;> try first | omega | simp_all
  all_goals first
    | (rename_i h1 h2
       subst h1
       subst h2
       rfl)
    | (rename_i h1
       subst h1
       rfl)

theorem validate_ok_exists (c : GoConfig) :
    (∃ c2, validate c = .ok c2) ↔
      c.minSize ≠ 0 ∧ c.minSize < c.targetSize ∧ c.targetSize < c.maxSize ∧
      c.normLevel ≤ 8 := by
  unfold validate
  split_ifs <;> simp <;> omega

/-! The claims. -/

/-- A fresh chunker over any error-free script carries the streaming
invariant for the script's bytes. -/
theorem initChunker_inv_gen (cfg : CoreCfg) (cap : Nat) (script : List RStep)
    (hcap : cfg.maxSize ≤ cap) (hnf : noFail script = true) :
    ChunkerInv cfg (initChunker cap script) (scriptBytes script) := by
  refine ⟨rfl, le_refl _, by simp [initChunker], by simpa [initChunker],
    ?_, hnf, by simp [initChunker], by simp [initChunker]⟩
  simp [initChunker, window, bufOf]

/-- Claim C1: for every error-free source and valid scanner
configuration, draining the streaming chunker partitions the input —
the run ends at end-of-stream, the concatenated chunk payloads are
exactly the source's bytes, and the chunk offsets chain contiguously
from 0 with no gaps or overlaps. -/
theorem fastcdc_C1 (cfg : CoreCfg) (hv : ValidCore cfg) (cap fuel : Nat)
    (script : List RStep) (hcap : cfg.maxSize ≤ cap)
    (hnf : noFail script = true)
    (hfuel : (scriptBytes script).length < fuel) :
    (runChunks cfg fuel (initChunker cap script)).2.1 = .eos ∧
    chunksData (runChunks cfg fuel (initChunker cap script)).1 =
      scriptBytes script ∧
    offsetsChain 0 (runChunks cfg fuel (initChunker cap script)).1 = true := by
  obtain ⟨ht, hdata, hoff, _, _⟩ := runChunks_spec cfg hv fuel
    (scriptBytes script) (initChunker cap script)
    (initChunker_inv_gen cfg cap script hcap hnf) hfuel
  exact ⟨ht, hdata, hoff⟩

/-- Claim C1 witness: a concrete five-byte source split into two chunks
that reassemble to the input with contiguous offsets. -/
theorem fastcdc_C1_witness :
    (runChunks ⟨fun _ => 1, 2, 2, 4, 0, 1⟩ 10
      (initChunker 4 [.give [1, 1, 1, 1, 1]])).2.1 = .eos ∧
    chunksData (runChunks ⟨fun _ => 1, 2, 2, 4, 0, 1⟩ 10
      (initChunker 4 [.give [1, 1, 1, 1, 1]])).1 =
      scriptBytes [.give [1, 1, 1, 1, 1]] ∧
    offsetsChain 0 (runChunks ⟨fun _ => 1, 2, 2, 4, 0, 1⟩ 10
      (initChunker 4 [.give [1, 1, 1, 1, 1]])).1 = true :=
  fastcdc_C1 ⟨fun _ => 1, 2, 2, 4, 0, 1⟩
    ⟨by decide, by decide, by decide⟩ 4 10 [.give [1, 1, 1, 1, 1]]
    (by decide) (by decide) (by decide)

/-- Claim C2: every chunk of a drained run is nonempty and no longer
than `maxSize` (the stream's last chunk included), and every chunk
except possibly the last is at least `minSize` long. -/
theorem fastcdc_C2 (cfg : CoreCfg) (hv : ValidCore cfg) (cap fuel : Nat)
    (script : List RStep) (hcap : cfg.maxSize ≤ cap)
    (hnf : noFail script = true)
    (hfuel : (scriptBytes script).length < fuel) :
    nonLastGE cfg.minSize (runChunks cfg fuel (initChunker cap script)).1 =
      true ∧
    ∀ ch ∈ (runChunks cfg fuel (initChunker cap script)).1,
      1 ≤ ch.length ∧ ch.length ≤ cfg.maxSize := by
  obtain ⟨_, _, _, hnl, hlen⟩ := runChunks_spec cfg hv fuel
    (scriptBytes script) (initChunker cap script)
    (initChunker_inv_gen cfg cap script hcap hnf) hfuel
  exact ⟨hnl, fun ch hch => ⟨(hlen ch hch).1, (hlen ch hch).2.1⟩⟩

/-- Claim C2 witness: a three-byte source whose chunks respect the
minimum length on every chunk but the last. -/
theorem fastcdc_C2_witness :
    nonLastGE 2 (runChunks ⟨fun _ => 1, 2, 2, 4, 0, 1⟩ 9
      (initChunker 4 [.give [1, 1, 1]])).1 = true :=
  (fastcdc_C2 ⟨fun _ => 1, 2, 2, 4, 0, 1⟩ ⟨by decide, by decide, by decide⟩
    4 9 [.give [1, 1, 1]] (by decide) (by decide) (by decide)).1

/-- Claim C3 (amended): whenever `FindBoundary` emits a boundary, the
persisted position is reset to the position an explicit `Reset` gives
(zero), while the persisted fingerprint is the hash at the boundary
rather than zero. -/
theorem fastcdc_C3 (cfg : CoreCfg) (s : CoreState) (data : List Nat)
    (hf : (findBoundary cfg s data).1.found = true) :
    (findBoundary cfg s data).2 =
      ⟨(findBoundary cfg s data).1.hash, coreResetState.position⟩ :=
  findBoundary_found_state cfg s data hf

/-- Claim C3 witness: a concrete boundary emission whose persisted state
is the boundary hash paired with position zero. -/
theorem fastcdc_C3_witness :
    (findBoundary ⟨fun _ => 2, 1, 2, 3, 0, 1⟩ ⟨0, 0⟩ [9, 9]).2 =
      ⟨(findBoundary ⟨fun _ => 2, 1, 2, 3, 0, 1⟩ ⟨0, 0⟩ [9, 9]).1.hash,
        coreResetState.position⟩ :=
  fastcdc_C3 ⟨fun _ => 2, 1, 2, 3, 0, 1⟩ ⟨0, 0⟩ [9, 9] (by decide)

/-- Claim C3 counterexample: a boundary emission after which the
persisted scanner state is not the `Reset` state `{0,0}` — the
fingerprint keeps the boundary hash `2`. -/
theorem fastcdc_C3_cex :
    (findBoundary ⟨fun _ => 2, 1, 2, 3, 0, 1⟩ ⟨0, 0⟩ [9, 9]).1.found =
      true ∧
    (findBoundary ⟨fun _ => 2, 1, 2, 3, 0, 1⟩ ⟨0, 0⟩ [9, 9]).2 ≠
      coreResetState := by
  decide

/-- Claim C9: resetting a used chunker onto a new source yields exactly
the chunk sequence and terminal outcome of a freshly constructed
chunker of the same buffer capacity, and the backing buffer is reused,
not reallocated. -/
theorem fastcdc_C9 (cfg : CoreCfg) (fuel : Nat) (c : ChunkerState)
    (script : List RStep) :
    (runChunks cfg fuel (chunkerReset c script)).1 =
      (runChunks cfg fuel (initChunker c.backing.length script)).1 ∧
    (runChunks cfg fuel (chunkerReset c script)).2.1 =
      (runChunks cfg fuel (initChunker c.backing.length script)).2.1 ∧
    (chunkerReset c script).backing = c.backing := by
  have sv : SameView (chunkerReset c script)
      (initChunker c.backing.length script) := by
    refine ⟨rfl, rfl, rfl, rfl, rfl, rfl, ?_, le_refl _, ?_, ?_⟩
    · simp [chunkerReset, initChunker]
    · simp [initChunker]
    · simp [chunkerReset, initChunker, window, bufOf]
  obtain ⟨h1, h2⟩ := runChunks_sameView cfg fuel
    (chunkerReset c script) (initChunker c.backing.length script) sv
  exact ⟨h1, h2, rfl⟩

/-- Claim C10: the scanner position invariant of `FindBoundary` from
any position below `maxSize`: an empty window leaves the state
unchanged, a boundary emission persists position zero, and a miss
persists a position still strictly below `maxSize`, so the hard-limit
cut is never overshot across resumed calls. -/
theorem fastcdc_C10 (cfg : CoreCfg) (hv : ValidCore cfg) (s : CoreState)
    (data : List Nat) (hpos : s.position < cfg.maxSize) :
    (data = [] → (findBoundary cfg s data).2 = s) ∧
    ((findBoundary cfg s data).1.found = true →
      (findBoundary cfg s data).2.position = 0) ∧
    ((findBoundary cfg s data).1.found = false →
      (findBoundary cfg s data).2.position < cfg.maxSize) := by
  refine ⟨?_, ?_, ?_⟩
  · intro h
    subst h
    rfl
  · intro hf
    rw [findBoundary_found_state cfg s data hf]
  · intro hf
    by_cases hd : data = []
    · subst hd
      have he : findBoundary cfg s [] = (⟨0, s.fingerprint, false⟩, s) := rfl
      rw [he]
      exact hpos
    · obtain ⟨_, hF⟩ := findBoundary_spec cfg hv s data hpos hd
      obtain ⟨_, hlt, hstate⟩ := hF hf
      rw [hstate]
      exact hlt

/-- Claim C10 witness: a concrete miss whose persisted position stays
below the maximum. -/
theorem fastcdc_C10_witness :
    (([9] : List Nat) = [] →
      (findBoundary ⟨fun _ => 0, 3, 3, 5, 1, 3⟩ ⟨0, 0⟩ [9]).2 = ⟨0, 0⟩) ∧
    ((findBoundary ⟨fun _ => 0, 3, 3, 5, 1, 3⟩ ⟨0, 0⟩ [9]).1.found = true →
      (findBoundary ⟨fun _ => 0, 3, 3, 5, 1, 3⟩ ⟨0, 0⟩ [9]).2.position = 0) ∧
    ((findBoundary ⟨fun _ => 0, 3, 3, 5, 1, 3⟩ ⟨0, 0⟩ [9]).1.found = false →
      (findBoundary ⟨fun _ => 0, 3, 3, 5, 1, 3⟩ ⟨0, 0⟩ [9]).2.position < 5) :=
  fastcdc_C10 ⟨fun _ => 0, 3, 3, 5, 1, 3⟩ ⟨by decide, by decide, by decide⟩
    ⟨0, 0⟩ [9] (by decide)

/-- Claim C4 (amended): scanning a window in one `FindBoundary` call
equals scanning it as two calls on the parts of `W1 ++ W2` — the same
boundary result and the same persisted state — provided no boundary
falls exactly at the split point and the second part is nonempty (a
call on an empty window reports boundary 0 without consuming anything,
which diverges from the one-call result). -/
theorem fastcdc_C4 (cfg : CoreCfg) (hv : ValidCore cfg) (s : CoreState)
    (W1 W2 : List Nat) (hW2 : W2 ≠ [])
    (hsplit : ¬ ((findBoundary cfg s W1).1.found = true ∧
      (findBoundary cfg s W1).1.boundary = s.position + W1.length)) :
    findBoundary cfg s (W1 ++ W2) =
      (if (findBoundary cfg s W1).1.found then findBoundary cfg s W1
       else findBoundary cfg (findBoundary cfg s W1).2 W2) := by
  obtain ⟨fp, p⟩ := s
  rcases W1 with _ | ⟨b, rest⟩
  · rfl
  · by_cases hp : p < cfg.maxSize
    · rw [findBoundary_eq_scanList cfg hv ⟨fp, p⟩ (b :: rest ++ W2) hp
          (by simp),
        findBoundary_eq_scanList cfg hv ⟨fp, p⟩ (b :: rest) hp (by simp),
        scanList_append cfg (b :: rest) W2 ⟨fp, p⟩]
      cases hf : (scanList cfg ⟨fp, p⟩ (b :: rest)).1.found with
      | true => rfl
      | false =>
        rw [if_neg (show ¬ (false = true) by simp),
          if_neg (show ¬ (false = true) by simp)]
        obtain ⟨_, hF⟩ := scanList_spec cfg hv (b :: rest) fp p hp
        obtain ⟨hb, hlt, hstate⟩ := hF hf
        rw [hstate]
        exact (findBoundary_eq_scanList cfg hv
          ⟨(scanList cfg ⟨fp, p⟩ (b :: rest)).1.hash, p + (b :: rest).length⟩
          W2 hlt hW2).symm
    · push_neg at hp
      rw [findBoundary_at_max cfg hv fp p (b :: rest ++ W2) hp (by simp),
        findBoundary_at_max cfg hv fp p (b :: rest) hp (by simp)]
      rfl

/-- Claim C4 witness: a four-byte window split in half, with the
boundary found inside the second half; the two-call scan agrees with
the one-call scan. -/
theorem fastcdc_C4_witness :
    findBoundary ⟨fun _ => 0, 3, 3, 5, 1, 3⟩ ⟨0, 0⟩ ([0, 0] ++ [0, 0]) =
      (if (findBoundary ⟨fun _ => 0, 3, 3, 5, 1, 3⟩ ⟨0, 0⟩ [0, 0]).1.found
       then findBoundary ⟨fun _ => 0, 3, 3, 5, 1, 3⟩ ⟨0, 0⟩ [0, 0]
       else findBoundary ⟨fun _ => 0, 3, 3, 5, 1, 3⟩
         (findBoundary ⟨fun _ => 0, 3, 3, 5, 1, 3⟩ ⟨0, 0⟩ [0, 0]).2
         [0, 0]) :=
  fastcdc_C4 ⟨fun _ => 0, 3, 3, 5, 1, 3⟩ ⟨by decide, by decide, by decide⟩
    ⟨0, 0⟩ [0, 0] [0, 0] (by decide) (by decide)

/-- Claim C4 counterexample: splitting `[9] = [9] ++ []` (no boundary
found anywhere, so none at the split point), the second call on the
empty part reports boundary 0 while the one-call scan reports 1 — the
two protocols do not return the same boundary result. -/
theorem fastcdc_C4_cex :
    (findBoundary ⟨fun _ => 0, 3, 3, 5, 1, 3⟩ ⟨0, 0⟩ ([9] ++ [])).1.found =
      false ∧
    (findBoundary ⟨fun _ => 0, 3, 3, 5, 1, 3⟩
        (findBoundary ⟨fun _ => 0, 3, 3, 5, 1, 3⟩ ⟨0, 0⟩ [9]).2 []).1 ≠
      (findBoundary ⟨fun _ => 0, 3, 3, 5, 1, 3⟩ ⟨0, 0⟩ ([9] ++ [])).1 := by
  decide

/-- Claim C5 (amended): `FindBoundary`'s returned value on every
window, from any persisted position (necessarily below `maxSize`): an
empty window returns 0 with `found=false` and the state unchanged; on
a nonempty window the value is chunk-relative, not window-relative —
on `found=true` it is the starting position plus the bytes consumed
from the window (an index into the window only when the scan started
at position 0), and on `found=false` it is the starting position plus
the full window length. -/
theorem fastcdc_C5 (cfg : CoreCfg) (hv : ValidCore cfg) (s : CoreState)
    (data : List Nat) (hpos : s.position < cfg.maxSize) :
    (data = [] →
      (findBoundary cfg s data).1.boundary = 0 ∧
      (findBoundary cfg s data).1.found = false ∧
      (findBoundary cfg s data).2 = s) ∧
    (data ≠ [] →
      ((findBoundary cfg s data).1.found = true →
        s.position < (findBoundary cfg s data).1.boundary ∧
        (findBoundary cfg s data).1.boundary ≤ s.position + data.length) ∧
      ((findBoundary cfg s data).1.found = false →
        (findBoundary cfg s data).1.boundary =
          s.position + data.length)) := by
  constructor
  · intro h
    subst h
    exact ⟨rfl, rfl, rfl⟩
  · intro hd
    obtain ⟨hT, hF⟩ := findBoundary_spec cfg hv s data hpos hd
    exact ⟨fun h => ⟨(hT h).1, (hT h).2.1⟩, fun h => (hF h).1⟩

/-- Claim C5 witness: a fresh two-byte scan that misses reports
boundary `0 + 2`, the position plus the window length. -/
theorem fastcdc_C5_witness :
    (([0, 0] : List Nat) = [] →
      (findBoundary ⟨fun _ => 0, 3, 3, 5, 1, 3⟩ ⟨0, 0⟩ [0, 0]).1.boundary =
        0 ∧
      (findBoundary ⟨fun _ => 0, 3, 3, 5, 1, 3⟩ ⟨0, 0⟩ [0, 0]).1.found =
        false ∧
      (findBoundary ⟨fun _ => 0, 3, 3, 5, 1, 3⟩ ⟨0, 0⟩ [0, 0]).2 =
        ⟨0, 0⟩) ∧
    (([0, 0] : List Nat) ≠ [] →
      ((findBoundary ⟨fun _ => 0, 3, 3, 5, 1, 3⟩ ⟨0, 0⟩ [0, 0]).1.found =
          true →
        0 < (findBoundary ⟨fun _ => 0, 3, 3, 5, 1, 3⟩
            ⟨0, 0⟩ [0, 0]).1.boundary ∧
        (findBoundary ⟨fun _ => 0, 3, 3, 5, 1, 3⟩
            ⟨0, 0⟩ [0, 0]).1.boundary ≤ 0 + 2) ∧
      ((findBoundary ⟨fun _ => 0, 3, 3, 5, 1, 3⟩ ⟨0, 0⟩ [0, 0]).1.found =
          false →
        (findBoundary ⟨fun _ => 0, 3, 3, 5, 1, 3⟩
            ⟨0, 0⟩ [0, 0]).1.boundary = 0 + 2)) :=
  fastcdc_C5 ⟨fun _ => 0, 3, 3, 5, 1, 3⟩ ⟨by decide, by decide, by decide⟩
    ⟨0, 0⟩ [0, 0] (by decide)

/-- Claim C5 counterexample: a resumed scan (persisted position 2 after
an exhausted first window) over a two-byte window reports a found
boundary of 4, which cannot be an offset into that window. -/
theorem fastcdc_C5_cex :
    (findBoundary ⟨fun _ => 0, 3, 3, 5, 1, 3⟩
        (findBoundary ⟨fun _ => 0, 3, 3, 5, 1, 3⟩ ⟨0, 0⟩ [0, 0]).2
        [0, 0]).1.found = true ∧
    ¬ ((findBoundary ⟨fun _ => 0, 3, 3, 5, 1, 3⟩
        (findBoundary ⟨fun _ => 0, 3, 3, 5, 1, 3⟩ ⟨0, 0⟩ [0, 0]).2
        [0, 0]).1.boundary ≤ ([0, 0] : List Nat).length) := by
  decide

/-- Claim C7 (amended): a nonempty input shorter than `minSize` yields
exactly one chunk, at offset 0 and spanning the whole input, and the
run then reports end-of-stream.  (The empty input is excluded: it
yields no chunk at all.) -/
theorem fastcdc_C7 (cfg : CoreCfg) (hv : ValidCore cfg) (cap fuel : Nat)
    (input : List Nat) (hcap : cfg.maxSize ≤ cap)
    (h1 : 1 ≤ input.length) (h2 : input.length < cfg.minSize)
    (hfuel : input.length < fuel) :
    ∃ ch, (runChunks cfg fuel (initChunker cap [.give input])).1 = [ch] ∧
      ch.offset = 0 ∧ ch.length = input.length ∧ ch.data = input ∧
      (runChunks cfg fuel (initChunker cap [.give input])).2.1 = .eos := by
  obtain ⟨ht, hdata, hoff, hnl, hlen⟩ := runChunks_spec cfg hv fuel input
    (initChunker cap [.give input]) (initChunker_inv cfg cap input hcap)
    hfuel
  rcases hl : (runChunks cfg fuel (initChunker cap [.give input])).1
    with _ | ⟨ch, t⟩
  · rw [hl] at hdata
    simp only [chunksData, List.map_nil, List.flatten_nil] at hdata
    rw [← hdata] at h1
    simp at h1
  · rcases t with _ | ⟨ch2, t2⟩
    · have hdl : ch.data.length = ch.length :=
        (hlen ch (by rw [hl]; exact List.mem_cons_self _ _)).2.2
      rw [hl] at hdata hoff
      simp [chunksData] at hdata
      simp [offsetsChain, initChunker] at hoff
      refine ⟨ch, rfl, hoff, ?_, hdata, ht⟩
      rw [← hdata]
      exact hdl.symm
    · exfalso
      have hm : cfg.minSize ≤ ch.length := by
        rw [hl] at hnl
        simp [nonLastGE] at hnl
        exact hnl.1
      have hdl : ch.data.length = ch.length :=
        (hlen ch (by rw [hl]; exact List.mem_cons_self _ _)).2.2
      rw [hl] at hdata
      have hexp : chunksData (ch :: ch2 :: t2) =
          ch.data ++ chunksData (ch2 :: t2) := by
        simp [chunksData]
      have hle : ch.data.length ≤ input.length := by
        rw [← hdata, hexp, List.length_append]
        omega
      omega

/-- Claim C7 witness: a one-byte input below the minimum size of 2
yields a single chunk and then end-of-stream. -/
theorem fastcdc_C7_witness :
    (runChunks ⟨fun _ => 1, 2, 2, 4, 0, 1⟩ 5
        (initChunker 4 [.give [5]])).1.length = 1 ∧
    (runChunks ⟨fun _ => 1, 2, 2, 4, 0, 1⟩ 5
        (initChunker 4 [.give [5]])).2.1 = .eos := by
  obtain ⟨ch, hl, _, _, _, ht⟩ :=
    fastcdc_C7 ⟨fun _ => 1, 2, 2, 4, 0, 1⟩ ⟨by decide, by decide, by decide⟩
      4 5 [5] (by decide) (by decide) (by decide) (by decide)
  refine ⟨?_, ht⟩
  rw [hl]
  rfl

/-- Claim C7 counterexample: the empty input is shorter than `minSize`
yet yields zero chunks rather than exactly one — the first `Next`
reports end-of-stream immediately. -/
theorem fastcdc_C7_cex :
    ([] : List Nat).length <
      (⟨fun _ => 1, 2, 2, 4, 0, 1⟩ : CoreCfg).minSize ∧
    (runChunks ⟨fun _ => 1, 2, 2, 4, 0, 1⟩ 5 (initChunker 4 [])).1 = [] ∧
    (runChunks ⟨fun _ => 1, 2, 2, 4, 0, 1⟩ 5 (initChunker 4 [])).2.1 =
      .eos := by
  decide

/-- In the error branch of `fillBuffer`, the first `bufLen - cursor`
bytes of the rewritten backing array are the old unconsumed window:
compaction moved the window to the front before the failed read. -/
theorem errWindow_take (c : ChunkerState) (bs : List Nat)
    (hbl : c.bufLen ≤ c.backing.length) :
    (((((c.backing.take c.bufLen).drop c.cursor ++
          c.backing.drop (c.bufLen - c.cursor)).take (c.bufLen - c.cursor) ++
        bs ++
        ((c.backing.take c.bufLen).drop c.cursor ++
          c.backing.drop (c.bufLen - c.cursor)).drop
          (c.bufLen - c.cursor + bs.length)).take c.bufLen).drop 0).take
      (c.bufLen - c.cursor) = window c := by
  rw [List.drop_zero, List.take_take, min_eq_left (by omega)]
  rw [List.append_assoc, List.take_left' (by
    rw [List.length_take, compact_length c hbl]
    omega)]
  exact compact_take c hbl

/-- Claim C6 (amended): a non-EOF source error during refill is
propagated verbatim by `Next` — never swallowed — and no already
delivered chunk is affected: the scanner state, absolute offset and
slice length are unchanged and the old unconsumed window is preserved
at the front of the new window.  The buffer is however NOT left
consistent for a caller-driven retry: the slice keeps its full length
while only the compacted window holds real data, so a retry scans
stale bytes and can emit chunks an error-free run never produces. -/
theorem fastcdc_C6 (cfg : CoreCfg) (c : ChunkerState) (e : Nat)
    (hbl : c.bufLen ≤ c.backing.length)
    (herr : (fillBuffer cfg c).1 = some e) :
    (next cfg c).1 = .error (.ioErr e) ∧
    (next cfg c).2 = (fillBuffer cfg c).2 ∧
    (next cfg c).2.offset = c.offset ∧
    (next cfg c).2.core = c.core ∧
    (next cfg c).2.bufLen = c.bufLen ∧
    (window (next cfg c).2).take (c.bufLen - c.cursor) = window c := by
  have h1 : ¬ cfg.maxSize ≤ c.bufLen - c.cursor := by
    intro h
    rw [fillBuffer_eq_big cfg c h] at herr
    simp at herr
  have h2 : c.eof = false := by
    cases he : c.eof
    · rfl
    · rw [fillBuffer_eq_eof cfg c h1 he] at herr
      simp at herr
  simp only [next, fillBuffer] at herr ⊢
  rw [if_neg h1] at herr ⊢
  rw [h2] at herr ⊢
  rw [if_neg (show ¬ (false = true) by simp)] at herr ⊢
  cases hst : (readFull c.script (c.bufLen - (c.bufLen - c.cursor))).2.1 with
  | full =>
    rw [hst] at herr
    simp at herr
  | eofHit =>
    rw [hst] at herr
    simp at herr
  | ioErr e2 =>
    rw [hst] at herr
    simp at herr
    subst herr
    refine ⟨rfl, rfl, rfl, rfl, rfl, ?_⟩
    exact errWindow_take c
      (readFull c.script (c.bufLen - (c.bufLen - c.cursor))).1 hbl

/-- Claim C6 witness: a scripted source failing with error code 7 on
its first read; `Next` reports exactly that code and leaves offset,
scanner state and slice length untouched, with the (empty) old window
preserved. -/
theorem fastcdc_C6_witness :
    (next ⟨fun _ => 1, 2, 2, 4, 0, 1⟩
        (initChunker 4 [.fail 7, .give [1, 1, 1, 1, 1]])).1 =
      .error (.ioErr 7) ∧
    (next ⟨fun _ => 1, 2, 2, 4, 0, 1⟩
        (initChunker 4 [.fail 7, .give [1, 1, 1, 1, 1]])).2 =
      (fillBuffer ⟨fun _ => 1, 2, 2, 4, 0, 1⟩
        (initChunker 4 [.fail 7, .give [1, 1, 1, 1, 1]])).2 ∧
    (next ⟨fun _ => 1, 2, 2, 4, 0, 1⟩
        (initChunker 4 [.fail 7, .give [1, 1, 1, 1, 1]])).2.offset = 0 ∧
    (next ⟨fun _ => 1, 2, 2, 4, 0, 1⟩
        (initChunker 4 [.fail 7, .give [1, 1, 1, 1, 1]])).2.core = ⟨0, 0⟩ ∧
    (next ⟨fun _ => 1, 2, 2, 4, 0, 1⟩
        (initChunker 4 [.fail 7, .give [1, 1, 1, 1, 1]])).2.bufLen = 4 ∧
    (window (next ⟨fun _ => 1, 2, 2, 4, 0, 1⟩
        (initChunker 4 [.fail 7, .give [1, 1, 1, 1, 1]])).2).take (4 - 4) =
      window (initChunker 4 [.fail 7, .give [1, 1, 1, 1, 1]]) :=
  fastcdc_C6 ⟨fun _ => 1, 2, 2, 4, 0, 1⟩
    (initChunker 4 [.fail 7, .give [1, 1, 1, 1, 1]]) 7 (by decide)
    (by decide)

/-- Claim C6 counterexample: after the propagated error, retrying
drains stale zero bytes from the full-length slice — the retry's chunk
sequence differs from the error-free run over the same source, so the
post-error state is not retry-consistent. -/
theorem fastcdc_C6_cex :
    (runChunks ⟨fun _ => 1, 2, 2, 4, 0, 1⟩ 1
        (initChunker 4 [.fail 7, .give [1, 1, 1, 1, 1]])).2.1 =
      .ioErr 7 ∧
    (runChunks ⟨fun _ => 1, 2, 2, 4, 0, 1⟩ 10
        (runChunks ⟨fun _ => 1, 2, 2, 4, 0, 1⟩ 1
          (initChunker 4 [.fail 7, .give [1, 1, 1, 1, 1]])).2.2).1 ≠
      (runChunks ⟨fun _ => 1, 2, 2, 4, 0, 1⟩ 10
        (initChunker 4 [.give [1, 1, 1, 1, 1]])).1 := by
  decide

/-- Claim C8: construction fails, with the distinct sentinel error of
each condition, exactly when the effective minimum size is zero, the
effective target size is not above the minimum, the effective maximum
size is not above the target, the normalization level exceeds 8, or an
explicitly supplied buffer size is non-positive; and a successful
validation raises a buffer size below `maxSize` to `maxSize`, leaving
larger ones unchanged. -/
theorem fastcdc_C8 (o : Opts) (c : GoConfig) (b : Int) :
    ((∃ c2, newCoreConfig o = .ok c2) ↔
      effMin o ≠ 0 ∧ effMin o < effTarget o ∧ effTarget o < effMax o ∧
      effNorm o ≤ 8 ∧ ¬ ∃ v, o.bufferSize = some v ∧ v ≤ 0) ∧
    (validate c = .error .invalidMinSize ↔ c.minSize = 0) ∧
    (validate c = .error .targetSizeTooSmall ↔
      c.minSize ≠ 0 ∧ c.targetSize ≤ c.minSize) ∧
    (validate c = .error .maxSizeTooSmall ↔
      c.minSize ≠ 0 ∧ c.minSize < c.targetSize ∧
      c.maxSize ≤ c.targetSize) ∧
    (validate c = .error .invalidNormLevel ↔
      c.minSize ≠ 0 ∧ c.minSize < c.targetSize ∧
      c.targetSize < c.maxSize ∧ 8 < c.normLevel) ∧
    (withBufferSize b c = .error .invalidBufferSize ↔ b ≤ 0) ∧
    (∀ c2, validate c = .ok c2 →
      (c.bufferSize < (c.maxSize : Int) →
        c2.bufferSize = (c.maxSize : Int)) ∧
      ((c.maxSize : Int) ≤ c.bufferSize →
        c2.bufferSize = c.bufferSize)) := by
  refine ⟨?_, ?_, ?_, ?_, ?_, ?_, ?_⟩
  · by_cases hm : o.minSize = some 0
    · constructor
      · rintro ⟨c2, hc2⟩
        rw [newCoreConfig_err_min o hm] at hc2
        simp at hc2
      · rintro ⟨hne, _⟩
        exact absurd (by simp [effMin, hm]) hne
    · by_cases ht : o.targetSize = some 0
      · constructor
        · rintro ⟨c2, hc2⟩
          rw [newCoreConfig_err_target o hm ht] at hc2
          simp at hc2
        · rintro ⟨_, hlt, _⟩
          have h0 : effTarget o = 0 := by simp [effTarget, ht]
          omega
      · by_cases hx : o.maxSize = some 0
        · constructor
          · rintro ⟨c2, hc2⟩
            rw [newCoreConfig_err_max o hm ht hx] at hc2
            simp at hc2
          · rintro ⟨_, _, hlt2, _⟩
            have h0 : effMax o = 0 := by simp [effMax, hx]
            omega
        · by_cases hn : ∃ v, o.normLevel = some v ∧ 8 < v
          · obtain ⟨v, hnv, h8⟩ := hn
            constructor
            · rintro ⟨c2, hc2⟩
              rw [newCoreConfig_err_norm o hm ht hx v hnv h8] at hc2
              simp at hc2
            · rintro ⟨_, _, _, hle, _⟩
              have h0 : effNorm o = v := by simp [effNorm, hnv]
              omega
          · by_cases hb : ∃ v, o.bufferSize = some v ∧ v ≤ 0
            · obtain ⟨bv, hbv, hb0⟩ := hb
              constructor
              · rintro ⟨c2, hc2⟩
                rw [newCoreConfig_err_buffer o hm ht hx hn bv hbv hb0]
                  at hc2
                simp at hc2
              · rintro ⟨_, _, _, _, hnb⟩
                exact absurd ⟨bv, hbv, hb0⟩ hnb
            · rw [newCoreConfig_eq_validate o hm ht hx hn hb,
                validate_ok_exists]
              constructor
              · rintro ⟨g1, g2, g3, g4⟩
                exact ⟨g1, g2, g3, g4, hb⟩
              · rintro ⟨g1, g2, g3, g4, _⟩
                exact ⟨g1, g2, g3, g4⟩
  · unfold validate
    split_ifs <;> simp_all
  · unfold validate
    split_ifs <;> simp_all
  · unfold validate
    split_ifs <;> simp_all
  · unfold validate
    split_ifs <;> simp_all
  · unfold withBufferSize
    split_ifs <;> simp_all
  · intro c2 hc2
    unfold validate at hc2
    split_ifs at hc2 <;> simp at hc2
    · subst hc2
      constructor
      · intro _
        rfl
      · intro h
        exact absurd h (by omega)
    · subst hc2
      constructor
      · intro h
        exact absurd h (by omega)
      · intro _
        rfl

/-- Claim C8 witness: a zero minimum size is rejected by validation
with the `invalidMinSize` sentinel. -/
theorem fastcdc_C8_witness :
    validate ⟨0, 65536, 262144, 2, 0, 524288⟩ =
      .error .invalidMinSize :=
  ((fastcdc_C8 ⟨none, none, none, none, none, none⟩
      ⟨0, 65536, 262144, 2, 0, 524288⟩ 1).2.1).mpr rfl

end FastCDC
